import Mathlib

/-!
Verification development for the message-utils core of the Harmony repository
(src/src/message-utils.ts): a Discord-markdown parser with derived sanitize and
escape transforms, and a message-link matcher/resolver.

Strings are embedded as `List Char`.  The parser engine of the simple-markdown
dependency is not part of the repository source; it is modelled from the
specification (ordered rule precedence, shared mutable context threaded through
recursive parses).  Everything taken verbatim from src/src/message-utils.ts is
marked with the line numbers of the source.
-/

namespace Harmony

/-- Coercion of an optional boolean context flag to a boolean, as JavaScript
truthiness does for a possibly-undefined field (`state.inQuote || false`). -/
def truthy (o : Option Bool) : Bool := o.getD false

/-- Helper producing the character list of a string literal. -/
def strL (s : String) : List Char := s.toList

/-! ## Link matcher (patterns class, src lines 222-279)

The `patterns.message` regex composes: an optional http or https scheme, an
optional canary or ptb subdomain, the fixed discord.com host (or, as the other
base alternative, the fixed discord protocol prefix), then the literal channels
path segment, a guildId (18 digits or the literal at-me token), a channelId
(18 digits) and a messageId (18 digits), each separated by one slash.  It is
used unanchored through the match method of the link string (leftmost match,
JavaScript alternation order; optional groups tried present-first).  The
embedding below follows that search order literally: fixed literals, 18-digit
runs, and the ordered candidate list for the optional scheme and version
prefixes. -/

/-- Named captures of a successful `patterns.message` match. -/
structure MsgGroups where
  scheme : Option (List Char)
  version : Option (List Char)
  guildId : List Char
  channelId : List Char
  messageId : List Char
deriving DecidableEq, Repr

/-- Literal-prefix parser: consume `pat` from the front of `l` or fail. -/
def litP (pat : List Char) (l : List Char) : Option (List Char) :=
  if pat.isPrefixOf l then some (l.drop pat.length) else none

/-- Consume `\d{18}`: exactly 18 consecutive decimal digits (more may follow,
the regex puts no boundary after them).  Src line 226 (patterns.snowflake). -/
def digits18 (l : List Char) : Option (List Char × List Char) :=
  let d := l.take 18
  if d.length = 18 ∧ d.all (·.isDigit) then some (d, l.drop 18) else none

/-- Candidate parses of `patterns.base` at the current position, in the order a
JavaScript regex engine would try them: web base with scheme (https before
http), each with version (canary before ptb) before no version, then the
schemeless web base, then the fixed discord protocol base (src lines 241-253).
Each candidate is (scheme capture, version capture, rest of input). -/
def baseCands (l : List Char) : List (Option (List Char) × Option (List Char) × List Char) :=
  let host := strL "discord.com"
  let webFrom (sch : Option (List Char)) (r : List Char) :
      List (Option (List Char) × Option (List Char) × List Char) :=
    (match litP (strL "canary.") r with
      | some r2 => (litP host r2).toList.map (fun r3 => (sch, some (strL "canary"), r3))
      | none => [])
    ++ (match litP (strL "ptb.") r with
      | some r2 => (litP host r2).toList.map (fun r3 => (sch, some (strL "ptb"), r3))
      | none => [])
    ++ ((litP host r).toList.map (fun r3 => (sch, none, r3)))
  (match litP (strL "https://") l with
    | some r => webFrom (some (strL "https")) r
    | none => [])
  ++ (match litP (strL "http://") l with
    | some r => webFrom (some (strL "http")) r
    | none => [])
  ++ webFrom none l
  ++ ((litP (strL "discord://-") l).toList.map (fun r => (none, none, r)))

/-- Suffix of the message pattern after the base:
`/channels/` guildId `/` channelId `/` messageId (src lines 259-271). -/
def msgSuffix (sch ver : Option (List Char)) (r : List Char) : Option MsgGroups := do
  let r ← litP (strL "/channels/") r
  let (gid, r) ← (match digits18 r with
    | some p => some p
    | none => (litP (strL "@me") r).map (fun r2 => (strL "@me", r2)))
  let r ← litP (strL "/") r
  let (cid, r) ← digits18 r
  let r ← litP (strL "/") r
  let (mid, _) ← digits18 r
  pure ⟨sch, ver, gid, cid, mid⟩

/-- First success of `f` over a list, in order. -/
def firstSome (f : α → Option β) : List α → Option β
  | [] => none
  | a :: t => match f a with
    | some b => some b
    | none => firstSome f t

/-- Match `patterns.message` anchored at the current position. -/
def matchAt (l : List Char) : Option MsgGroups :=
  firstSome (fun c => msgSuffix c.1 c.2.1 c.2.2) (baseCands l)

/-- Unanchored match of `patterns.message`, as `link.match(...)` performs it:
the leftmost position where the pattern matches wins (src line 293). -/
def matchMessage : List Char → Option MsgGroups
  | [] => matchAt []
  | l@(_ :: t) =>
    match matchAt l with
    | some g => some g
    | none => matchMessage t

/-! ## Message resolution (src lines 281-308)

`resolveMessageLink` is embedded with its two asynchronous collaborator lookups
(channel fetch, message fetch) made explicit: the embedding returns the
outcome together with the ordered list of lookup invocations actually
performed, so that "before any lookup" and "after the channel lookup but
before the message lookup" are statable. -/

/-- Errors surfaced by `resolveMessageLink`.  `typeError` is the generic
built-in `TypeError`; `messageResolveError` is the subclass declared at src
lines 281-285; `external` stands for an error propagated verbatim from a
collaborator lookup (e.g. an unknown-message rejection). -/
inductive RErr where
  | typeError (msg : List Char)
  | messageResolveError (msg : List Char)
  | external (tag : List Char)
deriving DecidableEq, Repr

/-- Does an outcome carry the distinguishable `MessageResolveError` subclass? -/
def isMRE : Except RErr α → Bool
  | .error (.messageResolveError _) => true
  | _ => false

/-- Lookup invocations against the client collaborator, in order. -/
inductive Event where
  | channelFetch (id : List Char)
  | messageFetch (id : List Char)
deriving DecidableEq, Repr

/-- A user record as resolved by the client (`client.users.resolve`). -/
structure User where
  id : List Char
  username : List Char

/-- Permissions object returned by `channel.permissionsFor`; only the
`VIEW_CHANNEL` flag is consulted (src line 302). -/
structure Perms where
  viewChannel : Bool

/-- Channel classification mirroring the `instanceof` tests of src lines
300-304: guild channel (with its permission capability, possibly returning
null), DM channel (with its single recipient id), group DM channel (with its
recipient list), or any other channel kind (no access check applies). -/
inductive ChannelKind where
  | guild (permissionsFor : List Char → Option Perms)
  | dm (recipientId : List Char)
  | groupDM (recipients : List User)
  | plain

/-- A fetched channel: text capability, classification, message lookup. -/
structure Channel where
  isText : Bool
  kind : ChannelKind
  messagesFetch : List Char → Except RErr (List Char)

/-- Client handle: channel lookup plus principal resolution
(`client.users.resolveId`, `client.users.resolve`). -/
structure Client where
  channelsFetch : List Char → Except RErr Channel
  usersResolveId : List Char → List Char
  usersResolve : List Char → User

/-- Options of `resolveMessageLink`; `asUser` is the requesting principal. -/
structure ROptions where
  asUser : List Char

/-- Error message of src line 294. -/
def msgNotLink : List Char := strL "The provided link is not a message link!"

/-- Error message of src line 298. -/
def msgNotText : List Char := strL "Channel is not a text channel!"

/-- Error message of src line 305. -/
def msgNoPerm : List Char := strL "User does not have permission!"

/-- Access-policy denial test of src lines 299-305: a guild channel denies
when `permissionsFor` is null or lacks VIEW_CHANNEL; a DM channel denies when
the principal is not the recipient; a group DM denies when no recipient
username equals the principal's resolved username; other kinds never deny. -/
def checkDenied (client : Client) (channel : Channel) (asUser : List Char) : Bool :=
  match channel.kind with
  | .guild pf =>
    match pf asUser with
    | none => true
    | some p => !p.viewChannel
  | .dm recipientId => recipientId ≠ client.usersResolveId asUser
  | .groupDM recips =>
    !(recips.any (fun r => r.username = (client.usersResolve asUser).username))
  | .plain => false

/-- Embedding of `resolveMessageLink` (src lines 287-308), returning the
outcome paired with the ordered list of collaborator lookups performed. -/
def resolveMessageLink (client : Client) (link : List Char) (options : ROptions) :
    Except RErr (List Char) × List Event :=
  match matchMessage link with
  | none => (.error (.typeError msgNotLink), [])
  | some g =>
    match client.channelsFetch g.channelId with
    | .error e => (.error e, [.channelFetch g.channelId])
    | .ok channel =>
      if !channel.isText then
        (.error (.messageResolveError msgNotText), [.channelFetch g.channelId])
      else if checkDenied client channel options.asUser then
        (.error (.messageResolveError msgNoPerm), [.channelFetch g.channelId])
      else
        match channel.messagesFetch g.messageId with
        | .error e => (.error e, [.channelFetch g.channelId, .messageFetch g.messageId])
        | .ok m => (.ok m, [.channelFetch g.channelId, .messageFetch g.messageId])

/-! ## Markdown grammar (src lines 4-157)

Rule match functions are embedded one-to-one from the regexes of the source
(or, for the rules taken from the simple-markdown dependency without an
override in src, modelled from the specification's description of the base
grammar).  Each matcher consumes from the front of the input and returns the
total matched length together with the captures its parse step needs.  Lazy
and greedy regex repetition is realised by explicit minimal/maximal searches
in the order a JavaScript engine would try them. -/

/-- JavaScript regex whitespace class (the class written backslash-s): space,
tab, line feed, carriage return, vertical tab, form feed, no-break space,
ogham space mark, the en-quad through hair-space range, line separator,
paragraph separator, narrow no-break space, medium mathematical space,
ideographic space, and the byte-order mark. -/
def jsWhitespace (c : Char) : Bool :=
  c == ' ' || c == '\t' || c == '\n' || c == '\r' || c.toNat == 0x0B || c.toNat == 0x0C ||
  c.toNat == 0xA0 || c.toNat == 0x1680 || (decide (0x2000 ≤ c.toNat) && decide (c.toNat ≤ 0x200A)) ||
  c.toNat == 0x2028 || c.toNat == 0x2029 || c.toNat == 0x202F || c.toNat == 0x205F ||
  c.toNat == 0x3000 || c.toNat == 0xFEFF

/-- JavaScript regex word-character class: ASCII alphanumerics and underscore. -/
def isWordChar (c : Char) : Bool := c.isAlphanum || c == '_'

/-- JavaScript string trim, as applied to the fenced-code language tag
(src line 38). -/
def trimWs (l : List Char) : List Char :=
  ((l.dropWhile jsWhitespace).reverse.dropWhile jsWhitespace).reverse

/-- Least index i (0 allowed) such that `p` holds of the suffix starting at i,
or none. -/
def leastSplit (p : List Char → Bool) : List Char → Option Nat
  | [] => if p [] then some 0 else none
  | l@(_ :: t) => if p l then some 0 else (leastSplit p t).map (· + 1)

/-- Least index i with 1 ≤ i such that `p` holds of the suffix starting at i:
the search performed by a lazy one-or-more repetition followed by a
delimiter test. -/
def leastSplitPos (p : List Char → Bool) : List Char → Option Nat
  | [] => none
  | _ :: t => (leastSplit p t).map (· + 1)

/-- Capture payload of a successful rule match, one constructor per grammar
rule (the escape and emoticon rules produce plain text nodes). -/
inductive SelAct where
  | spoilerA (inner : List Char)
  | codeBlockA (lang content : List Char)
  | blockQuoteA (matched : List Char)
  | newlineA
  | escapeA (c : Char)
  | autolinkA (target : List Char)
  | urlA (target : List Char)
  | emA (inner : List Char)
  | strongA (inner : List Char)
  | uA (inner : List Char)
  | strikeA (inner : List Char)
  | icA (content : List Char)
  | brA
  | textA (content : List Char)
  | duA (id : List Char)
  | dcA (id : List Char)
  | drA (id : List Char)
  | demA (animated : Bool) (name id : List Char)
  | devA
  | dhA
deriving Repr

/-- A successful match: total matched length (capture index 0) plus payload. -/
structure Sel where
  len : Nat
  act : SelAct
deriving Repr

/-- Parse context: the two optional boolean flags of the specification's
ParseContext, mutated in place by the source's rules (undefined until first
written, hence `Option`). -/
structure MDState where
  inline : Option Bool := none
  inQuote : Option Bool := none
deriving DecidableEq, Repr

/-- Spoiler rule match (src line 94): two pipes, lazily the shortest nonempty
inner span, two pipes. -/
def spoilerMatch (l : List Char) : Option Sel :=
  match l with
  | '|' :: '|' :: rest =>
    match leastSplitPos (fun r => (strL "||").isPrefixOf r) rest with
    | some i => some ⟨2 + i + 2, .spoilerA (rest.take i)⟩
    | none => none
  | _ => none

/-- Language-tag character of the fenced-code opening fence (src line 35,
case-insensitive). -/
def isLangChar (c : Char) : Bool := c.isAlphanum || c == '-'

/-- Length of the leading newline run. -/
def nlCount (l : List Char) : Nat := (l.takeWhile (· == '\n')).length

/-- Greedy search for the closing fence after the code body: the largest
k ≤ bound of leading newlines of `r` followed immediately by three
backticks. -/
def fenceKAux (r : List Char) : Nat → Option Nat
  | 0 => if (strL "```").isPrefixOf r then some 0 else none
  | k + 1 =>
    if (strL "```").isPrefixOf (r.drop (k + 1)) then some (k + 1) else fenceKAux r k

/-- Trailing-newline count before a closing fence at the current position. -/
def fenceKOf (r : List Char) : Option Nat := fenceKAux r (nlCount r)

/-- Lazy search for the code body: least body length e ≥ 1 such that the
closing fence (after some consumed trailing newlines) follows; returns the
body length and the trailing-newline count. -/
def fenceContentEnd (body : List Char) : Option (Nat × Nat) :=
  match leastSplitPos (fun r => (fenceKOf r).isSome) body with
  | some e => (fenceKOf (body.drop e)).map (fun k => (e, k))
  | none => none

/-- Backtracking over the newline run preceding the code body, largest first,
down to and including zero consumed newlines. -/
def fenceSearch (after : List Char) : Nat → Option (Nat × Nat × Nat)
  | 0 => (fenceContentEnd after).map (fun p => (0, p.1, p.2))
  | t + 1 =>
    match fenceContentEnd (after.drop (t + 1)) with
    | some p => some (t + 1, p.1, p.2)
    | none => fenceSearch after t

/-- Same backtracking search but requiring at least one consumed newline (the
one-or-more newline run inside the optional language group). -/
def fenceSearchPos (after : List Char) : Nat → Option (Nat × Nat × Nat)
  | 0 => none
  | t + 1 =>
    match fenceContentEnd (after.drop (t + 1)) with
    | some p => some (t + 1, p.1, p.2)
    | none => fenceSearchPos after t

/-- Fenced-code rule match (src line 35): three backticks, an optional
language tag followed by at least one newline, optional further newlines,
the lazily shortest nonempty body, optional newlines, three backticks.
The rule is inline-scoped. -/
def codeBlockMatch (st : MDState) (l : List Char) : Option Sel :=
  if !truthy st.inline then none
  else match l with
  | '`' :: '`' :: '`' :: rest =>
    let lang := rest.takeWhile isLangChar
    let tryB : Option Sel :=
      match fenceSearch rest (nlCount rest) with
      | some (t, e, k) => some ⟨3 + t + e + k + 3, .codeBlockA [] ((rest.drop t).take e)⟩
      | none => none
    if lang ≠ [] ∧ (rest.drop lang.length).head? = some '\n' then
      let afterLang := rest.drop lang.length
      match fenceSearchPos afterLang (nlCount afterLang) with
      | some (t, e, k) =>
        some ⟨3 + lang.length + t + e + k + 3, .codeBlockA lang ((afterLang.drop t).take e)⟩
      | none => tryB
    else tryB
  | _ => none

/-- Does the previous capture permit a block-level match: empty, or a newline
followed only by spaces at its end (src line 10). -/
def endsNlSpaces (l : List Char) : Bool :=
  match l.reverse.dropWhile (· == ' ') with
  | '\n' :: _ => true
  | _ => false

/-- Greedy consumption of further quote lines: repetitions of newline, spaces,
a quote marker with trailing space, and a line body (src line 10, second
alternative of the block-quote regex). -/
def bqLines : Nat → List Char → Nat
  | 0, _ => 0
  | fuel + 1, l =>
    match l with
    | '\n' :: r =>
      let sp := (r.takeWhile (· == ' ')).length
      if (strL "> ").isPrefixOf (r.drop sp) then
        let afterMark := r.drop (sp + 2)
        let line := afterMark.takeWhile (· ≠ '\n')
        1 + sp + 2 + line.length + bqLines fuel (afterMark.drop line.length)
      else 0
    | _ => 0

/-- Block-quote rule match (src lines 9-11): requires the previous capture to
end at a line start and the context to not already be inside a quote; then
either the triple-marker form consuming the entire remaining input, or the
single-marker form consuming consecutive marked lines plus an optional
trailing newline. -/
def blockQuoteMatch (st : MDState) (pc : List Char) (l : List Char) : Option Sel :=
  if !(pc = [] || endsNlSpaces pc) || truthy st.inQuote then none
  else
    let sp := (l.takeWhile (· == ' ')).length
    let after := l.drop sp
    if (strL ">>> ").isPrefixOf after then
      some ⟨l.length, .blockQuoteA l⟩
    else if (strL "> ").isPrefixOf after then
      let line := (after.drop 2).takeWhile (· ≠ '\n')
      let rest := (after.drop 2).drop line.length
      let lines := bqLines rest.length rest
      let nl := if (rest.drop lines).head? = some '\n' then 1 else 0
      let len := sp + 2 + line.length + lines + nl
      some ⟨len, .blockQuoteA (l.take len)⟩
    else none

/-- Length consumed after the first newline by the newline rule: greedy
repetitions of spaces followed by a newline. -/
def nlSeqLen : Nat → List Char → Nat
  | 0, _ => 0
  | fuel + 1, l =>
    let sp := (l.takeWhile (· == ' ')).length
    if (l.drop sp).head? = some '\n' then sp + 1 + nlSeqLen fuel (l.drop (sp + 1)) else 0

/-- Newline rule of the base grammar (modelled from the spec's base-grammar
description; block-scoped, so it never fires while the context is inline). -/
def newlineMatch (st : MDState) (l : List Char) : Option Sel :=
  if truthy st.inline then none
  else match l with
    | '\n' :: r => some ⟨1 + nlSeqLen r.length r, .newlineA⟩
    | _ => none

/-- Modelled from the spec: the backslash-escape rule of the base grammar
(referenced as defaultRules.escape at src line 45) — a backslash followed by
one character that is neither alphanumeric nor whitespace, producing a plain
text node holding that character. -/
def escapeMatch (st : MDState) (l : List Char) : Option Sel :=
  if !truthy st.inline then none
  else match l with
    | '\\' :: c :: _ =>
      if !(c.isAlphanum || jsWhitespace c) then some ⟨2, .escapeA c⟩ else none
    | _ => none

/-- Modelled from the spec: the autolink rule of the base grammar (src lines
46-58 override only its parse step) — an angle-bracketed URL whose scheme
part excludes colon, space and the closing bracket, followed by a colon, a
slash, and a nonempty remainder excluding space and the closing bracket. -/
def autolinkMatch (st : MDState) (l : List Char) : Option Sel :=
  if !truthy st.inline then none
  else match l with
    | '<' :: rest =>
      let p1 := rest.takeWhile (fun c => !(c == ':' || c == ' ' || c == '>'))
      let r1 := rest.drop p1.length
      if p1 ≠ [] ∧ (strL ":/").isPrefixOf r1 then
        let r2 := r1.drop 2
        let p2 := r2.takeWhile (fun c => !(c == ' ' || c == '>'))
        if p2 ≠ [] ∧ (r2.drop p2.length).head? = some '>' then
          some ⟨1 + p1.length + 2 + p2.length + 1, .autolinkA (p1 ++ ':' :: '/' :: p2)⟩
        else none
      else none
    | _ => none

/-- Characters that may not end a bare URL match. -/
def urlTrailChar (c : Char) : Bool :=
  c == '<' || c == '.' || c == ',' || c == ':' || c == ';' || c == '"' ||
  c == '\'' || c == ')' || c == ']' || jsWhitespace c

/-- Modelled from the spec: the bare-URL rule of the base grammar (src lines
59-71 override only its parse step) — an http or https scheme, a greedy run
excluding whitespace and the opening angle bracket, trimmed back so that the
final character is not sentence punctuation, with at least two body
characters. -/
def urlMatch (st : MDState) (l : List Char) : Option Sel :=
  if !truthy st.inline then none
  else if (strL "http").isPrefixOf l then
    let sLen := if (l.drop 4).head? = some 's' then 1 else 0
    let afterScheme := l.drop (4 + sLen)
    if (strL "://").isPrefixOf afterScheme then
      let body := (afterScheme.drop 3).takeWhile (fun c => !(jsWhitespace c || c == '<'))
      let core := (body.reverse.dropWhile urlTrailChar).reverse
      if 2 ≤ core.length then
        some ⟨4 + sLen + 3 + core.length, .urlA ((l.take (4 + sLen)) ++ ':' :: '/' :: '/' :: core)⟩
      else none
    else none
  else none

/-- Lazy one-or-more atom repetition followed by a closing test: after each
atom, closing is preferred over extending, as a lazy regex repetition does. -/
def lazyAtoms (atom : List Char → Option Nat) (close : List Char → Bool) :
    Nat → List Char → Option Nat
  | 0, _ => none
  | fuel + 1, l =>
    match atom l with
    | none => none
    | some a =>
      let r := l.drop a
      if close r then some a else (lazyAtoms atom close fuel r).map (a + ·)

/-- Content atom of the underscore emphasis form: a double underscore, an
escaped character, or any character other than backslash and underscore. -/
def emUAtom (l : List Char) : Option Nat :=
  match l with
  | '_' :: '_' :: _ => some 2
  | '\\' :: _ :: _ => some 2
  | c :: _ => if c == '\\' || c == '_' then none else some 1
  | [] => none

/-- Closing test of the underscore emphasis form: one underscore followed by a
word boundary (end of input or a non-word character). -/
def emUClose (l : List Char) : Bool :=
  match l with
  | '_' :: r =>
    match r with
    | [] => true
    | c :: _ => !isWordChar c
  | _ => false

/-- Content atom of the asterisk emphasis form: a double asterisk, an escaped
character, a whitespace run followed by an escaped character or double
asterisk or plain character, or a plain character (not whitespace, asterisk
or backslash). -/
def emSAtom (l : List Char) : Option Nat :=
  match l with
  | '*' :: '*' :: _ => some 2
  | '\\' :: _ :: _ => some 2
  | c :: r =>
    if jsWhitespace c then
      let sp := 1 + (r.takeWhile jsWhitespace).length
      match l.drop sp with
      | '\\' :: _ :: _ => some (sp + 2)
      | '*' :: '*' :: _ => some (sp + 2)
      | d :: _ => if jsWhitespace d || d == '*' || d == '\\' then none else some (sp + 1)
      | [] => none
    else if c == '*' || c == '\\' then none
    else some 1
  | [] => none

/-- Closing test of the asterisk emphasis form: one asterisk not followed by
another. -/
def emSClose (l : List Char) : Bool :=
  match l with
  | '*' :: r => r.head? ≠ some '*'
  | _ => false

/-- Modelled from the spec: the emphasis rule of the base grammar (src line
72) — word-bounded underscore-delimited content, or asterisk-delimited
content whose first character is not whitespace, with the atom grammar above. -/
def emMatch (st : MDState) (l : List Char) : Option Sel :=
  if !truthy st.inline then none
  else match l with
    | '_' :: rest =>
      (lazyAtoms emUAtom emUClose rest.length rest).map
        (fun clen => ⟨1 + clen + 1, .emA (rest.take clen)⟩)
    | '*' :: rest =>
      if (match rest.head? with | some c => !jsWhitespace c | none => false) then
        (lazyAtoms emSAtom emSClose rest.length rest).map
          (fun clen => ⟨1 + clen + 1, .emA (rest.take clen)⟩)
      else none
    | _ => none

/-- Content atom shared by the strong and underline rules: an escaped
character, or any single character other than a lone backslash. -/
def strongAtom (l : List Char) : Option Nat :=
  match l with
  | '\\' :: _ :: _ => some 2
  | '\\' :: [] => none
  | _ :: _ => some 1
  | [] => none

/-- Closing test of the strong rule: double asterisk not followed by a third. -/
def strongClose (l : List Char) : Bool :=
  match l with
  | '*' :: '*' :: r => r.head? ≠ some '*'
  | _ => false

/-- Closing test of the underline rule: double underscore not followed by a
third. -/
def uClose (l : List Char) : Bool :=
  match l with
  | '_' :: '_' :: r => r.head? ≠ some '_'
  | _ => false

/-- Modelled from the spec: the strong rule of the base grammar (src line 73)
— double-asterisk delimited lazily shortest content. -/
def strongMatch (st : MDState) (l : List Char) : Option Sel :=
  if !truthy st.inline then none
  else match l with
    | '*' :: '*' :: rest =>
      (lazyAtoms strongAtom strongClose rest.length rest).map
        (fun clen => ⟨2 + clen + 2, .strongA (rest.take clen)⟩)
    | _ => none

/-- Modelled from the spec: the underline rule of the base grammar (src line
74) — double-underscore delimited lazily shortest content. -/
def uMatch (st : MDState) (l : List Char) : Option Sel :=
  if !truthy st.inline then none
  else match l with
    | '_' :: '_' :: rest =>
      (lazyAtoms strongAtom uClose rest.length rest).map
        (fun clen => ⟨2 + clen + 2, .uA (rest.take clen)⟩)
    | _ => none

/-- Strike rule match (src line 76): double tilde, lazily shortest nonempty
content, double tilde not followed by an underscore. -/
def strikeMatch (st : MDState) (l : List Char) : Option Sel :=
  if !truthy st.inline then none
  else match l with
    | '~' :: '~' :: rest =>
      match leastSplitPos
          (fun r => (strL "~~").isPrefixOf r && !((r.drop 2).head? == some '_')) rest with
      | some i => some ⟨2 + i + 2, .strikeA (rest.take i)⟩
      | none => none
    | _ => none

/-- Does a run of exactly n backticks (not followed by another) start here? -/
def tickClose (n : Nat) (r : List Char) : Bool :=
  (List.replicate n '`').isPrefixOf r && !((r.drop n).head? == some '`')

/-- Lazy search for the inline-code body: least m ≥ 1 whose final character is
not a backtick, followed by the closing backtick run. -/
def icFind (n : Nat) : Nat → List Char → Option Nat
  | 0, _ => none
  | fuel + 1, l =>
    match l with
    | c :: r =>
      if c ≠ '`' ∧ tickClose n r then some 1
      else (icFind n fuel r).map (· + 1)
    | [] => none

/-- Greedy backtracking over the opening backtick run, longest first. -/
def icTryN (l : List Char) : Nat → Option Sel
  | 0 => none
  | n + 1 =>
    let rest := l.drop (n + 1)
    match icFind (n + 1) rest.length rest with
    | some m => some ⟨(n + 1) + m + (n + 1), .icA (rest.take m)⟩
    | none => icTryN l n

/-- Modelled from the spec: the inline-code rule of the base grammar (src line
78) — a backtick run, lazily shortest content not ending in a backtick, the
identical backtick run not followed by another backtick. -/
def inlineCodeMatch (st : MDState) (l : List Char) : Option Sel :=
  if !truthy st.inline then none
  else icTryN l ((l.takeWhile (· == '`')).length)

/-- Line-break rule match (src line 90): one newline, in any scope. -/
def brMatch (l : List Char) : Option Sel :=
  match l with
  | '\n' :: _ => some ⟨1, .brA⟩
  | _ => none

/-- Word-colon-nonspace test of the plain-text lookahead (src line 6): a
nonempty word run, a colon, then a non-whitespace character. -/
def wordColonStop (l : List Char) : Bool :=
  let w := l.takeWhile isWordChar
  !w.isEmpty && ((l.drop w.length).head? == some ':') &&
    (match (l.drop (w.length + 1)).head? with
      | some d => !jsWhitespace d
      | none => false)

/-- Character class over which plain text runs freely (src line 6): ASCII
alphanumerics, regex whitespace, hyphen, and the extended range from U+00C0
through U+FFFF. -/
def goodTextChar (c : Char) : Bool :=
  c.isAlphanum || jsWhitespace c || c == '-' || (0xC0 ≤ c.toNat && c.toNat ≤ 0xFFFF)

/-- Lookahead of the plain-text rule: stop at end of input, before a special
character, before a newline, or before a word-colon-nonspace pattern. -/
def textStop (l : List Char) : Bool :=
  match l with
  | [] => true
  | c :: _ => !goodTextChar c || c == '\n' || wordColonStop l

/-- Plain-text rule match length (src line 6): lazily the shortest nonempty
prefix whose following position satisfies the lookahead. -/
def textLen : List Char → Nat
  | [] => 0
  | _ :: t => if textStop t then 1 else 1 + textLen t

/-- Plain-text rule match: succeeds on every nonempty input. -/
def textMatch (l : List Char) : Option Sel :=
  match l with
  | [] => none
  | _ :: _ => some ⟨textLen l, .textA (l.take (textLen l))⟩

/-- The shrug emoticon literal (src line 81). -/
def shrugLit : List Char := ['¯', '\\', '_', '(', 'ツ', ')', '_', '/', '¯']

/-- Emoticon rule match (src lines 79-88): the literal shrug sequence,
parsed as a plain text node. -/
def emoticonMatch (l : List Char) : Option Sel :=
  if shrugLit.isPrefixOf l then some ⟨9, .textA shrugLit⟩ else none

/-- User-mention rule match (src line 106): angle bracket, at sign, optional
exclamation mark, any run of digits (possibly empty), closing bracket. -/
def discordUserMatch (l : List Char) : Option Sel :=
  match l with
  | '<' :: '@' :: rest =>
    let bang := if rest.head? = some '!' then 1 else 0
    let r := rest.drop bang
    let ds := r.takeWhile (·.isDigit)
    if (r.drop ds.length).head? = some '>' then
      some ⟨2 + bang + ds.length + 1, .duA ds⟩
    else none
  | _ => none

/-- Channel-mention rule match (src line 115): angle bracket, optional hash,
any run of digits (possibly empty), closing bracket. -/
def discordChannelMatch (l : List Char) : Option Sel :=
  match l with
  | '<' :: rest =>
    let hash := if rest.head? = some '#' then 1 else 0
    let r := rest.drop hash
    let ds := r.takeWhile (·.isDigit)
    if (r.drop ds.length).head? = some '>' then
      some ⟨1 + hash + ds.length + 1, .dcA ds⟩
    else none
  | _ => none

/-- Role-mention rule match (src line 124). -/
def discordRoleMatch (l : List Char) : Option Sel :=
  match l with
  | '<' :: '@' :: '&' :: rest =>
    let ds := rest.takeWhile (·.isDigit)
    if (rest.drop ds.length).head? = some '>' then
      some ⟨3 + ds.length + 1, .drA ds⟩
    else none
  | _ => none

/-- Custom-emoji rule match (src line 133): optional animation marker, colon,
nonempty word-character name, colon, nonempty digit run, closing bracket. -/
def discordEmojiMatch (l : List Char) : Option Sel :=
  match l with
  | '<' :: rest =>
    let (anim, aLen, afterColon) :=
      match rest with
      | 'a' :: ':' :: r => (true, 2, r)
      | ':' :: r => (false, 1, r)
      | _ => (false, 0, rest)
    if aLen = 0 then none
    else
      let name := afterColon.takeWhile isWordChar
      let r2 := afterColon.drop name.length
      if name ≠ [] ∧ r2.head? = some ':' then
        let ds := (r2.drop 1).takeWhile (·.isDigit)
        if ds ≠ [] ∧ ((r2.drop 1).drop ds.length).head? = some '>' then
          some ⟨1 + aLen + name.length + 1 + ds.length + 1, .demA anim name ds⟩
        else none
      else none
  | _ => none

/-- Everyone-mention rule match (src line 144). -/
def discordEveryoneMatch (l : List Char) : Option Sel :=
  if (strL "@everyone").isPrefixOf l then some ⟨9, .devA⟩ else none

/-- Here-mention rule match (src line 151). -/
def discordHereMatch (l : List Char) : Option Sel :=
  if (strL "@here").isPrefixOf l then some ⟨5, .dhA⟩ else none

/-- Rule selection, modelled from the spec: rules tried in ascending
precedence order, the first nonempty match winning.  Ties (the platform
references share the strong/emphasis tier, and the emoticon exception shares
the plain-text tier) are broken by the engine's stable rule-name ordering,
which places the six platform-reference rules before the emphasis family and
the emoticon exception before plain text — realizing the spec's requirement
that the shrug sequence be recognized before the underscore rules can
misinterpret it.  The resulting order is: spoiler, fenced code, block quote,
newline, escape, autolink, bare URL, the platform-reference rules, emphasis,
strong, underline, strike, inline code, line break, emoticon, plain text. -/
def selectRule (st : MDState) (pc : List Char) (l : List Char) : Option Sel :=
  firstSome id
    [spoilerMatch l,
     codeBlockMatch st l,
     blockQuoteMatch st pc l,
     newlineMatch st l,
     escapeMatch st l,
     autolinkMatch st l,
     urlMatch st l,
     discordChannelMatch l,
     discordEmojiMatch l,
     discordEveryoneMatch l,
     discordHereMatch l,
     discordRoleMatch l,
     discordUserMatch l,
     emMatch st l,
     strongMatch st l,
     uMatch st l,
     strikeMatch st l,
     inlineCodeMatch st l,
     brMatch l,
     emoticonMatch l,
     textMatch l]

/-! ## Nodes, parser engine, sanitizer, escaper (src lines 159-216) -/

/-- Parsed node, a tagged variant keyed by kind (the link and emoji kinds are
handled by the sanitizer but never produced by this rule set; the newline
kind is produced by the block-scoped newline rule and falls to the
sanitizer's default case). -/
inductive Node where
  | text (content : List Char)
  | blockQuote (content : List Node)
  | codeBlock (lang content : List Char) (inQuote : Bool)
  | newline
  | autolink (content : List Node) (target : List Char)
  | url (content : List Node) (target : List Char)
  | em (content : List Node)
  | strong (content : List Node)
  | u (content : List Node)
  | strike (content : List Node)
  | inlineCode (content : List Char)
  | br
  | spoiler (content : List Node)
  | discordUser (id : List Char)
  | discordChannel (id : List Char)
  | discordRole (id : List Char)
  | discordEmoji (animated : Bool) (name id : List Char)
  | discordEveryone
  | discordHere
  | link (content : List Node) (target : List Char)
  | emoji (name : List Char)
deriving Repr

/-- Line split at newlines, for the global multiline marker strip of the
single-marker block-quote form (src line 15). -/
def splitNlAux : List Char → List Char → List (List Char)
  | [], acc => [acc.reverse]
  | '\n' :: t, acc => acc.reverse :: splitNlAux t []
  | c :: t, acc => splitNlAux t (c :: acc)

/-- All lines of a character list. -/
def splitNl (l : List Char) : List (List Char) := splitNlAux l []

/-- Strip one leading quote marker (spaces, one greater-than sign, one
optional space) from a line; a line without the marker is left unchanged. -/
def stripQuoteLine (line : List Char) : List Char :=
  let r := line.dropWhile (· == ' ')
  match r with
  | '>' :: r2 =>
    match r2 with
    | ' ' :: r3 => r3
    | _ => r2
  | _ => line

/-- Strip the leading triple marker (spaces, three greater-than signs, one
optional space) of the block form (src line 15). -/
def stripBlockMarker (m : List Char) : List Char :=
  let r := (m.dropWhile (· == ' ')).drop 3
  match r with
  | ' ' :: r2 => r2
  | _ => r

/-- Test of src line 14: does the capture start with spaces and the triple
marker? -/
def isBlockMarker (m : List Char) : Bool :=
  (strL ">>>").isPrefixOf (m.dropWhile (· == ' '))

/-- Parse step of the block-quote rule (src lines 12-32): strip the markers,
set inQuote (and for the single-marker form also inline) in the shared
context, recursively parse the stripped content, then assign both flags the
boolean coercion of their current values — the source's final two
assignments, which coerce rather than restore. -/
def blockQuoteParseStep
    (nested : List Char → MDState → List Char → List (Node × List Char) × MDState)
    (matched : List Char) (st : MDState) (pc : List Char) : Node × MDState :=
  let isBlock := isBlockMarker matched
  let content :=
    if isBlock then stripBlockMarker matched
    else List.intercalate ['\n'] ((splitNl matched).map stripQuoteLine)
  let st1 : MDState :=
    { st with inQuote := some true, inline := if isBlock then st.inline else some true }
  let res := nested content st1 pc
  (Node.blockQuote (res.1.map (·.1)),
    { res.2 with inQuote := some (truthy res.2.inQuote), inline := some (truthy res.2.inline) })

/-- The parser engine, modelled from the spec: repeatedly select the first
matching rule at the current position, run its parse step (threading the
shared mutable context and handing recursive parses the previous capture),
consume the matched span, and continue with the span as the new previous
capture.  The fuel argument bounds the recursion; the input length is always
sufficient.  Each produced node is paired with its matched span. -/
def nestedParse : Nat → List Char → MDState → List Char → List (Node × List Char) × MDState
  | _, [], st, _ => ([], st)
  | 0, _ :: _, st, _ => ([], st)
  | fuel + 1, l@(_ :: _), st, pc =>
    match selectRule st pc l with
    | none => ([], st)
    | some sel =>
      let span := l.take sel.len
      let step : Node × MDState :=
        match sel.act with
        | .textA content => (Node.text content, st)
        | .escapeA c => (Node.text [c], st)
        | .newlineA => (Node.newline, st)
        | .brA => (Node.br, st)
        | .codeBlockA lang content =>
          (Node.codeBlock (trimWs lang) content (truthy st.inQuote), st)
        | .blockQuoteA m => blockQuoteParseStep (nestedParse fuel) m st pc
        | .spoilerA inner =>
          let res := nestedParse fuel inner st pc
          (Node.spoiler (res.1.map (·.1)), res.2)
        | .emA inner =>
          let res := nestedParse fuel inner st pc
          (Node.em (res.1.map (·.1)), res.2)
        | .strongA inner =>
          let res := nestedParse fuel inner st pc
          (Node.strong (res.1.map (·.1)), res.2)
        | .uA inner =>
          let res := nestedParse fuel inner st pc
          (Node.u (res.1.map (·.1)), res.2)
        | .strikeA inner =>
          let res := nestedParse fuel inner st pc
          (Node.strike (res.1.map (·.1)), res.2)
        | .autolinkA t => (Node.autolink [Node.text t] t, st)
        | .urlA t => (Node.url [Node.text t] t, st)
        | .icA content => (Node.inlineCode content, st)
        | .duA id => (Node.discordUser id, st)
        | .dcA id => (Node.discordChannel id, st)
        | .drA id => (Node.discordRole id, st)
        | .demA a n i => (Node.discordEmoji a n i, st)
        | .devA => (Node.discordEveryone, st)
        | .dhA => (Node.discordHere, st)
      let rest := nestedParse fuel (l.drop sel.len) step.2 span
      ((step.1, span) :: rest.1, rest.2)

/-- Initial context of the exported parse entry point (src line 161). -/
def initState : MDState := { inline := some true, inQuote := none }

/-- Full engine run on an input, fuel equal to the input length. -/
def parseFull (l : List Char) : List (Node × List Char) × MDState :=
  nestedParse l.length l initState []

/-- Exported parse (src lines 160-162): the node sequence of the engine run. -/
def parse (l : List Char) : List Node := (parseFull l).1.map (·.1)

mutual

/-- Fold of one node to plain text (src lines 167-199): containers concatenate
their sanitized children, platform references become one space, literal kinds
pass through, a line break becomes one newline, anything else contributes
nothing. -/
def sanitizeNode : Node → List Char
  | .strong c => sanitizeNodes c
  | .em c => sanitizeNodes c
  | .strike c => sanitizeNodes c
  | .u c => sanitizeNodes c
  | .link c _ => sanitizeNodes c
  | .url c _ => sanitizeNodes c
  | .autolink c _ => sanitizeNodes c
  | .spoiler c => sanitizeNodes c
  | .blockQuote c => sanitizeNodes c
  | .discordUser _ => [' ']
  | .discordChannel _ => [' ']
  | .discordRole _ => [' ']
  | .discordEveryone => [' ']
  | .discordHere => [' ']
  | .discordEmoji _ _ _ => [' ']
  | .emoji _ => [' ']
  | .inlineCode c => c
  | .codeBlock _ c _ => c
  | .text c => c
  | .br => ['\n']
  | .newline => []

/-- Concatenation of the sanitized children of a node sequence. -/
def sanitizeNodes : List Node → List Char
  | [] => []
  | n :: t => sanitizeNode n ++ sanitizeNodes t

end

/-- Exported sanitize (src lines 164-202): parse, then fold every node to
plain text and concatenate. -/
def sanitize (l : List Char) : List Char := ((parse l).map sanitizeNode).flatten

/-- One pass of the source's replaceAll with a single-character pattern:
every occurrence of the character is replaced by a backslash and itself. -/
def replaceAllCh (c : Char) (l : List Char) : List Char :=
  l.flatMap (fun x => if x = c then ['\\', c] else [x])

/-- Exported escape (src lines 207-216): eight sequential full passes,
backslash first, then asterisk, underscore, backtick, pipe, tilde,
greater-than, less-than. -/
def escape (l : List Char) : List Char :=
  replaceAllCh '<' (replaceAllCh '>' (replaceAllCh '~' (replaceAllCh '|'
    (replaceAllCh '`' (replaceAllCh '_' (replaceAllCh '*' (replaceAllCh '\\' l)))))))

/-! ## Concrete collaborators and inputs used by the theorems below -/

/-- The grammar's special characters, exactly the eight characters the escaper
backslash-prefixes (src lines 208-215). -/
def specials : List Char := ['\\', '*', '_', '`', '|', '~', '>', '<']

/-- Per-character effect of the eight escape passes. -/
def escChar (c : Char) : List Char :=
  if c ∈ specials then ['\\', c] else [c]

/-- Ordinary text character: ASCII alphanumeric, space, hyphen, or in the
extended range U+00C0 through U+FFFF over which the plain-text rule runs
freely. -/
def OrdinaryCh (c : Char) : Prop :=
  c.isAlphanum = true ∨ c = ' ' ∨ c = '-' ∨ (0xC0 ≤ c.toNat ∧ c.toNat ≤ 0xFFFF)

/-- Denial of the guild-channel view policy: the permission lookup returned
null, or a permissions object without the view-channel flag. -/
def permsDenied : Option Perms → Prop
  | none => True
  | some p => p.viewChannel = false

/-- A client whose channel lookup always fails; used where the outcome must
not depend on any lookup succeeding. -/
def dummyClient : Client :=
  { channelsFetch := fun _ => .error (.external (strL "Unknown Channel")),
    usersResolveId := fun u => u,
    usersResolve := fun u => ⟨u, u⟩ }

/-- Arbitrary request options. -/
def anyOpts : ROptions := ⟨strL "someUser"⟩

/-- The happy-path message link of the specification's test property. -/
def c6Link : List Char :=
  strL "https://discord.com/channels/111111111111111111/222222222222222222/333333333333333333"

/-- The captures the happy-path link should produce. -/
def c6Groups : MsgGroups :=
  ⟨some (strL "https"), none, strL "111111111111111111",
   strL "222222222222222222", strL "333333333333333333"⟩

/-- A viewable guild text channel holding the happy-path message. -/
def c6Channel : Channel :=
  { isText := true,
    kind := .guild (fun _ => some ⟨true⟩),
    messagesFetch := fun mid =>
      if mid = strL "333333333333333333" then .ok (strL "the message")
      else .error (.external (strL "Unknown Message")) }

/-- A client exposing the happy-path channel under its id. -/
def c6Client : Client :=
  { channelsFetch := fun cid =>
      if cid = strL "222222222222222222" then .ok c6Channel
      else .error (.external (strL "Unknown Channel")),
    usersResolveId := fun u => u,
    usersResolve := fun u => ⟨u, u⟩ }

/-- A guild text channel whose permission lookup lacks the view flag. -/
def c4Channel : Channel :=
  { isText := true,
    kind := .guild (fun _ => some ⟨false⟩),
    messagesFetch := fun _ => .error (.external (strL "Unknown Message")) }

/-- A client exposing the no-view channel under the happy-path channel id. -/
def c4Client : Client :=
  { channelsFetch := fun cid =>
      if cid = strL "222222222222222222" then .ok c4Channel
      else .error (.external (strL "Unknown Channel")),
    usersResolveId := fun u => u,
    usersResolve := fun u => ⟨u, u⟩ }

/-- A link whose message-link-shaped part sits mid-string and whose final id
position holds nineteen digits. -/
def c9Link : List Char :=
  strL "see https://discord.com/channels/111111111111111111/222222222222222222/3333333333333333339 now"

/-! ## Theorems -/

/-- Unanchored search: if the pattern matches at some position, the leftmost
scan succeeds. -/
theorem matchMessage_isSome (l : List Char) (h : ∃ i, (matchAt (l.drop i)).isSome) :
    (matchMessage l).isSome := by
  induction l with
  | nil =>
    obtain ⟨i, hi⟩ := h
    simpa [matchMessage, List.drop_nil] using hi
  | cons c t ih =>
    obtain ⟨i, hi⟩ := h
    rw [matchMessage]
    cases hm : matchAt (c :: t) with
    | some g => rfl
    | none =>
      cases i with
      | zero => simp only [List.drop_zero] at hi; rw [hm] at hi; exact absurd hi (by simp)
      | succ j => exact ih ⟨j, by simpa using hi⟩

/-- C3 (amended): a link that does not match the message pattern makes
`resolveMessageLink` fail before any lookup occurs (the lookup trace is
empty), but with the generic built-in TypeError of src line 294 — not with
the distinguishable MessageResolveError subclass, which the source reserves
for the channel-type and permission failures. -/
theorem C3_malformed_fails_before_lookup (client : Client) (link : List Char)
    (opts : ROptions) (h : matchMessage link = none) :
    resolveMessageLink client link opts = (.error (.typeError msgNotLink), [])
    ∧ isMRE (resolveMessageLink client link opts).1 = false := by
  unfold resolveMessageLink
  rw [h]
  exact ⟨rfl, rfl⟩

/-- C3 counterexample: on the malformed link the resolver does fail before any
lookup, but the error is the generic TypeError itself — `isMRE` is false — so
the failure is not of a kind distinguishable from the generic
input-validation category. -/
theorem C3_counterexample :
    resolveMessageLink dummyClient (strL "not a link") anyOpts
      = (.error (.typeError msgNotLink), [])
    ∧ isMRE (resolveMessageLink dummyClient (strL "not a link") anyOpts).1 = false := by
  constructor <;> rfl

/-- C3 witness: the amended theorem applied at the malformed link. -/
theorem C3_witness :
    resolveMessageLink dummyClient (strL "not a link") anyOpts
      = (.error (.typeError msgNotLink), [])
    ∧ isMRE (resolveMessageLink dummyClient (strL "not a link") anyOpts).1 = false :=
  C3_malformed_fails_before_lookup dummyClient (strL "not a link") anyOpts (by decide)

/-- C4: a well-formed message link whose fetched channel is text-capable and
either a guild channel denying the view permission, a DM channel whose
recipient is not the principal, or a group DM channel with no recipient of
the principal's username, fails with the permission MessageResolveError after
the channel lookup and before any message lookup (the trace holds exactly the
channel fetch). -/
theorem C4_permission_denied (client : Client) (link : List Char) (opts : ROptions)
    (g : MsgGroups) (ch : Channel)
    (hm : matchMessage link = some g)
    (hf : client.channelsFetch g.channelId = .ok ch)
    (ht : ch.isText = true)
    (hd : (∃ pf, ch.kind = .guild pf ∧ permsDenied (pf opts.asUser))
      ∨ (∃ rid, ch.kind = .dm rid ∧ rid ≠ client.usersResolveId opts.asUser)
      ∨ (∃ rs, ch.kind = .groupDM rs
          ∧ ∀ r ∈ rs, ¬ r.username = (client.usersResolve opts.asUser).username)) :
    resolveMessageLink client link opts
      = (.error (.messageResolveError msgNoPerm), [.channelFetch g.channelId]) := by
  have hden : checkDenied client ch opts.asUser = true := by
    unfold checkDenied
    rcases hd with ⟨pf, hk, hp⟩ | ⟨rid, hk, hr⟩ | ⟨rs, hk, hu⟩ <;> rw [hk] <;> dsimp only
    · cases hpf : pf opts.asUser with
      | none => rfl
      | some p => rw [hpf] at hp; simp only [permsDenied] at hp; simp [hp]
    · simpa using hr
    · simp only [Bool.not_eq_true', List.any_eq_false, decide_eq_true_eq]
      intro r hrm
      exact hu r hrm
  unfold resolveMessageLink
  rw [hm]
  dsimp only
  rw [hf]
  dsimp only
  rw [ht, hden]
  simp

/-- C4 witness: the theorem applied to a concrete client whose guild channel
lacks the view-channel flag. -/
theorem C4_witness :
    resolveMessageLink c4Client c6Link anyOpts
      = (.error (.messageResolveError msgNoPerm),
         [.channelFetch (strL "222222222222222222")]) :=
  C4_permission_denied c4Client c6Link anyOpts c6Groups c4Channel (by decide) rfl rfl
    (.inl ⟨fun _ => some ⟨false⟩, rfl, rfl⟩)

/-- C6: the happy-path link matches the message pattern with guild, channel
and message ids captured as specified, and resolving it invokes the channel
lookup with the channel id and then the message lookup with the message id,
in that order, returning the fetched message. -/
theorem C6_happy_path :
    matchMessage c6Link = some c6Groups
    ∧ resolveMessageLink c6Client c6Link anyOpts
        = (.ok (strL "the message"),
           [.channelFetch (strL "222222222222222222"),
            .messageFetch (strL "333333333333333333")]) := by
  constructor <;> rfl

/-- C7: every platform-reference node is sanitized to exactly one space, and
sanitizing the user-mention string yields the single-character space string. -/
theorem C7_mention_redaction :
    (∀ id : List Char, sanitizeNode (.discordUser id) = [' ']
      ∧ sanitizeNode (.discordChannel id) = [' ']
      ∧ sanitizeNode (.discordRole id) = [' '])
    ∧ (∀ (a : Bool) (name id : List Char), sanitizeNode (.discordEmoji a name id) = [' '])
    ∧ (∀ name : List Char, sanitizeNode (.emoji name) = [' '])
    ∧ sanitizeNode .discordEveryone = [' ']
    ∧ sanitizeNode .discordHere = [' ']
    ∧ sanitize (strL "<@123456789012345678>") = [' '] :=
  ⟨fun _ => ⟨rfl, rfl, rfl⟩, fun _ _ _ => rfl, fun _ => rfl, rfl, rfl, rfl⟩

/-- C8: parsing the fenced-code string yields one fenced-code node with
language tag js and raw body code (not a recursively parsed child list), and
sanitizing it passes the body through verbatim; in general the sanitizer
passes any fenced-code body through unchanged. -/
theorem C8_fenced_code_verbatim :
    parse (strL "```js\ncode\n```") = [.codeBlock (strL "js") (strL "code") false]
    ∧ sanitize (strL "```js\ncode\n```") = strL "code"
    ∧ ∀ (lang content : List Char) (q : Bool),
        sanitizeNode (.codeBlock lang content q) = content :=
  ⟨rfl, rfl, fun _ _ _ => rfl⟩

/-- C9: the message pattern is applied unanchored — whenever any position of
the link admits a match, resolution does not take the malformed-input branch:
the pattern yields captures, and the lookup trace begins with the channel
fetch of the captured channel id (followed, at most, by the message fetch of
the captured message id). -/
theorem C9_unanchored_match (client : Client) (opts : ROptions) (link : List Char)
    (h : ∃ i, (matchAt (link.drop i)).isSome) :
    ∃ g, matchMessage link = some g
      ∧ ((resolveMessageLink client link opts).2 = [.channelFetch g.channelId]
        ∨ (resolveMessageLink client link opts).2
            = [.channelFetch g.channelId, .messageFetch g.messageId]) := by
  obtain ⟨g, hg⟩ := Option.isSome_iff_exists.mp (matchMessage_isSome link h)
  refine ⟨g, hg, ?_⟩
  unfold resolveMessageLink
  rw [hg]
  dsimp only
  cases hcf : client.channelsFetch g.channelId with
  | error e => left; rfl
  | ok ch =>
    dsimp only
    cases hT : ch.isText with
    | false => left; simp [hT]
    | true =>
      cases hD : checkDenied client ch opts.asUser with
      | true => left; simp [hT, hD]
      | false =>
        cases hmf : ch.messagesFetch g.messageId with
        | error e => right; simp [hT, hD, hmf]
        | ok m => right; simp [hT, hD, hmf]

/-- C9 witness: the theorem applied to a link with surrounding text and a
nineteen-digit final id position, of which the first eighteen digits are
captured as the message id. -/
theorem C9_witness :
    (matchMessage c9Link).map (fun g => g.messageId) = some (strL "333333333333333333")
    ∧ ∃ g, matchMessage c9Link = some g
      ∧ ((resolveMessageLink dummyClient c9Link anyOpts).2 = [.channelFetch g.channelId]
        ∨ (resolveMessageLink dummyClient c9Link anyOpts).2
            = [.channelFetch g.channelId, .messageFetch g.messageId]) :=
  ⟨by decide, C9_unanchored_match dummyClient anyOpts c9Link ⟨4, by decide⟩⟩

/-- Flag behaviour of the block-quote parse step, given that the recursive
parser it is handed never clears a truthy flag: the final two assignments
coerce, so inQuote always comes out as some true; inline comes out as some
true for the single-line form, and also whenever it was truthy before. -/
theorem blockQuoteParseStep_flags
    (nested : List Char → MDState → List Char → List (Node × List Char) × MDState)
    (hmono : ∀ src st pc,
      (truthy st.inQuote = true → truthy (nested src st pc).2.inQuote = true)
      ∧ (truthy st.inline = true → truthy (nested src st pc).2.inline = true))
    (matched : List Char) (st : MDState) (pc : List Char) :
    (blockQuoteParseStep nested matched st pc).2.inQuote = some true
    ∧ (isBlockMarker matched = false →
        (blockQuoteParseStep nested matched st pc).2.inline = some true)
    ∧ (truthy st.inline = true →
        (blockQuoteParseStep nested matched st pc).2.inline = some true) := by
  unfold blockQuoteParseStep
  cases hib : isBlockMarker matched with
  | false =>
    simp only [hib, Bool.false_eq_true, if_neg, ite_false]
    refine ⟨?_, fun _ => ?_, fun _ => ?_⟩
    · have h := (hmono (List.intercalate ['\n'] ((splitNl matched).map stripQuoteLine))
        { st with inQuote := some true, inline := some true } pc).1 (by rfl)
      simp [h]
    · have h := (hmono (List.intercalate ['\n'] ((splitNl matched).map stripQuoteLine))
        { st with inQuote := some true, inline := some true } pc).2 (by rfl)
      simp [h]
    · have h := (hmono (List.intercalate ['\n'] ((splitNl matched).map stripQuoteLine))
        { st with inQuote := some true, inline := some true } pc).2 (by rfl)
      simp [h]
  | true =>
    simp only [hib, if_pos, ite_true]
    refine ⟨?_, ?_, ?_⟩
    · have h := (hmono (stripBlockMarker matched)
        { st with inQuote := some true, inline := st.inline } pc).1 (by rfl)
      simp [h]
    · intro hf
      exact absurd hf (by decide)
    · intro hin
      have h := (hmono (stripBlockMarker matched)
        { st with inQuote := some true, inline := st.inline } pc).2 (by simpa using hin)
      simp [h]

/-- No grammar rule ever clears a truthy context flag: the engine preserves
truthiness of inQuote and inline through every parse. -/
theorem nestedParse_keeps_truthy (fuel : Nat) :
    ∀ (src : List Char) (st : MDState) (pc : List Char),
      (truthy st.inQuote = true → truthy (nestedParse fuel src st pc).2.inQuote = true)
      ∧ (truthy st.inline = true → truthy (nestedParse fuel src st pc).2.inline = true) := by
  induction fuel with
  | zero =>
    intro src st pc
    cases src <;> exact ⟨id, id⟩
  | succ fuel ih =>
    intro src st pc
    cases src with
    | nil => exact ⟨id, id⟩
    | cons c t =>
      rw [nestedParse]
      cases hsel : selectRule st pc (c :: t) with
      | none => exact ⟨id, id⟩
      | some sel =>
        dsimp only
        obtain ⟨len, act⟩ := sel
        have hstep : ∀ st1 : MDState,
            (truthy st.inQuote = true → truthy st1.inQuote = true) →
            (truthy st.inline = true → truthy st1.inline = true) →
            (truthy st.inQuote = true →
              truthy (nestedParse fuel ((c :: t).drop len) st1 ((c :: t).take len)).2.inQuote = true)
            ∧ (truthy st.inline = true →
              truthy (nestedParse fuel ((c :: t).drop len) st1 ((c :: t).take len)).2.inline = true) :=
          fun st1 h1 h2 =>
            ⟨fun h => (ih _ st1 _).1 (h1 h), fun h => (ih _ st1 _).2 (h2 h)⟩
        cases act with
        | blockQuoteA m =>
          have hbq := blockQuoteParseStep_flags (nestedParse fuel) (fun s u p => ih s u p) m st pc
          dsimp only
          exact hstep _ (fun _ => by rw [hbq.1]; rfl)
            (fun h => by rw [hbq.2.2 h]; rfl)
        | spoilerA inner => exact hstep _ (ih inner st pc).1 (ih inner st pc).2
        | emA inner => exact hstep _ (ih inner st pc).1 (ih inner st pc).2
        | strongA inner => exact hstep _ (ih inner st pc).1 (ih inner st pc).2
        | uA inner => exact hstep _ (ih inner st pc).1 (ih inner st pc).2
        | strikeA inner => exact hstep _ (ih inner st pc).1 (ih inner st pc).2
        | textA content => exact hstep _ id id
        | escapeA ch => exact hstep _ id id
        | newlineA => exact hstep _ id id
        | brA => exact hstep _ id id
        | codeBlockA lang content => exact hstep _ id id
        | autolinkA tg => exact hstep _ id id
        | urlA tg => exact hstep _ id id
        | icA content => exact hstep _ id id
        | duA i => exact hstep _ id id
        | dcA i => exact hstep _ id id
        | drA i => exact hstep _ id id
        | demA a n i => exact hstep _ id id
        | devA => exact hstep _ id id
        | dhA => exact hstep _ id id

/-- C5 (amended): after the block-quote rule's parse completes, the context
flags are boolean coercions of their values after the recursive parse rather
than restorations of the caller's values: inQuote is always left set to true,
and for the single-line form inline is also left set to true, regardless of
the values the caller's context held before. -/
theorem C5_flags_coerced_not_restored (fuel : Nat) (matched : List Char)
    (st : MDState) (pc : List Char) :
    (blockQuoteParseStep (nestedParse fuel) matched st pc).2.inQuote = some true
    ∧ (isBlockMarker matched = false →
        (blockQuoteParseStep (nestedParse fuel) matched st pc).2.inline = some true) :=
  have h := blockQuoteParseStep_flags (nestedParse fuel)
    (fun s u p => nestedParse_keeps_truthy fuel s u p) matched st pc
  ⟨h.1, h.2.1⟩

/-- C5 counterexample: running the block-quote parse step on the single-line
capture with a caller context whose inQuote was false leaves inQuote set to
true — the caller's value is not restored. -/
theorem C5_counterexample :
    (blockQuoteParseStep (nestedParse 4) (strL "> hi")
        { inline := some true, inQuote := some false } []).2.inQuote = some true
    ∧ ¬ (blockQuoteParseStep (nestedParse 4) (strL "> hi")
        { inline := some true, inQuote := some false } []).2.inQuote
          = ({ inline := some true, inQuote := some false } : MDState).inQuote := by
  constructor
  · rfl
  · decide

/-- C5 witness: the amended theorem applied to the single-line capture. -/
theorem C5_witness :
    isBlockMarker (strL "> hi") = false
    ∧ (blockQuoteParseStep (nestedParse 4) (strL "> hi")
        { inline := some true, inQuote := some false } []).2.inQuote = some true
    ∧ (blockQuoteParseStep (nestedParse 4) (strL "> hi")
        { inline := some true, inQuote := some false } []).2.inline = some true :=
  ⟨by decide,
   (C5_flags_coerced_not_restored 4 (strL "> hi")
      { inline := some true, inQuote := some false } []).1,
   (C5_flags_coerced_not_restored 4 (strL "> hi")
      { inline := some true, inQuote := some false } []).2 (by decide)⟩

/-- The engine leaves the empty input untouched regardless of fuel. -/
theorem nestedParse_nil (f : Nat) (st : MDState) (pc : List Char) :
    nestedParse f [] st pc = ([], st) := by
  cases f <;> rfl

/-- One engine step whose selected rule is the user mention. -/
theorem nestedParse_cons_duA (fuel : Nat) (c : Char) (t : List Char) (st : MDState)
    (pc : List Char) (n : Nat) (idd : List Char)
    (hsel : selectRule st pc (c :: t) = some ⟨n, .duA idd⟩) :
    nestedParse (fuel + 1) (c :: t) st pc =
      ((Node.discordUser idd, (c :: t).take n)
        :: (nestedParse fuel ((c :: t).drop n) st ((c :: t).take n)).1,
       (nestedParse fuel ((c :: t).drop n) st ((c :: t).take n)).2) := by
  conv_lhs => rw [nestedParse.eq_def]
  dsimp only
  rw [hsel]

/-- One engine step whose selected rule is the channel mention. -/
theorem nestedParse_cons_dcA (fuel : Nat) (c : Char) (t : List Char) (st : MDState)
    (pc : List Char) (n : Nat) (idd : List Char)
    (hsel : selectRule st pc (c :: t) = some ⟨n, .dcA idd⟩) :
    nestedParse (fuel + 1) (c :: t) st pc =
      ((Node.discordChannel idd, (c :: t).take n)
        :: (nestedParse fuel ((c :: t).drop n) st ((c :: t).take n)).1,
       (nestedParse fuel ((c :: t).drop n) st ((c :: t).take n)).2) := by
  conv_lhs => rw [nestedParse.eq_def]
  dsimp only
  rw [hsel]

/-- A takeWhile over a run all of whose characters pass, stopped by the next
character. -/
theorem takeWhile_append_stop (p : Char → Bool) (d : List Char) (x : Char) (r : List Char)
    (hd : ∀ c ∈ d, p c = true) (hx : p x = false) :
    (d ++ x :: r).takeWhile p = d := by
  induction d with
  | nil => simp [List.takeWhile, hx]
  | cons a d' ih =>
    have ha : p a = true := hd a (by simp)
    simp only [List.cons_append, List.takeWhile_cons, ha, if_true]
    rw [ih (fun c hc => hd c (by simp [hc]))]

/-- A digit differs from any non-digit character. -/
theorem digit_ne (c x : Char) (h : c.isDigit = true) (hx : x.isDigit = false) : c ≠ x :=
  fun he => by rw [he] at h; rw [h] at hx; cases hx

/-- A digit passes the autolink scheme-character class. -/
theorem digit_autolink_class (c : Char) (h : c.isDigit = true) :
    (!(c == ':' || c == ' ' || c == '>')) = true := by
  simp only [Bool.not_eq_true', Bool.or_eq_false_iff, beq_eq_false_iff_ne]
  exact ⟨⟨digit_ne c ':' h (by decide), digit_ne c ' ' h (by decide)⟩,
    digit_ne c '>' h (by decide)⟩

/-- The role rule rejects an input whose third character is a digit. -/
theorem roleNone (c : Char) (r : List Char) (hc : c.isDigit = true) :
    discordRoleMatch ('<' :: '@' :: c :: r) = none := by
  unfold discordRoleMatch
  split
  · next heq =>
      injection heq with h1 h2
      injection h2 with h3 h4
      injection h4 with h5 h6
      rw [h5] at hc
      simp at hc
  · rfl

/-- The autolink rule rejects a bracketed digit run: after the sigil and the
digits the next character is the closing bracket, so the mandatory colon is
missing. -/
theorem autolinkNone (a : Char) (d : List Char)
    (ha : (!(a == ':' || a == ' ' || a == '>')) = true)
    (h : ∀ c ∈ d, c.isDigit = true) :
    autolinkMatch initState ('<' :: a :: (d ++ ['>'])) = none := by
  have htw : List.takeWhile (fun c => !(c == ':' || c == ' ' || c == '>'))
      ((a :: d) ++ '>' :: []) = a :: d :=
    takeWhile_append_stop _ (a :: d) '>' []
      (fun c hc => by
        rcases List.mem_cons.mp hc with hca | hcd
        · rw [hca]; exact ha
        · exact digit_autolink_class c (h c hcd))
      (by decide)
  unfold autolinkMatch
  rw [if_neg (by decide)]
  split
  · next rest heq =>
      injection heq with h1 h2
      subst h2
      rw [show (a :: (d ++ ['>'] : List Char)) = ((a :: d) ++ '>' :: []) from rfl]
      rw [htw]
      dsimp only
      rw [List.drop_left]
      rw [if_neg (fun hcon => absurd hcon.2 (by decide))]
  · rfl

/-- The user-mention rule accepts a bracketed digit run, any length included,
capturing exactly the digits. -/
theorem userSome (d : List Char) (h : ∀ c ∈ d, c.isDigit = true) :
    discordUserMatch ('<' :: '@' :: (d ++ ['>']))
      = some ⟨2 + 0 + d.length + 1, .duA d⟩ := by
  have hb : ¬ ((d ++ ['>'] : List Char).head? = some '!') := by
    cases d with
    | nil => simp
    | cons a d' =>
      simp only [List.cons_append, List.head?_cons, Option.some.injEq]
      exact digit_ne a '!' (h a (by simp)) (by decide)
  unfold discordUserMatch
  split
  · next rest heq =>
      injection heq with h1 h2
      injection h2 with h3 h4
      subst h4
      rw [if_neg hb]
      dsimp only
      simp only [List.drop_zero]
      rw [takeWhile_append_stop (·.isDigit) d '>' [] (fun c hc => h c hc) (by decide)]
      rw [List.drop_left]
      simp
  · next hne => exact absurd rfl (hne (d ++ ['>']))

/-- The channel-mention rule accepts a hashed bracketed digit run, any length
included, capturing exactly the digits. -/
theorem channelSome (d : List Char) (h : ∀ c ∈ d, c.isDigit = true) :
    discordChannelMatch ('<' :: '#' :: (d ++ ['>']))
      = some ⟨1 + 1 + d.length + 1, .dcA d⟩ := by
  unfold discordChannelMatch
  split
  · next rest heq =>
      injection heq with h1 h2
      subst h2
      rw [if_pos (show ('#' :: (d ++ ['>'] : List Char)).head? = some '#' from rfl)]
      dsimp only
      rw [show List.drop 1 ('#' :: (d ++ ['>'] : List Char)) = d ++ ['>'] from rfl]
      rw [takeWhile_append_stop (·.isDigit) d '>' [] (fun c hc => h c hc) (by decide)]
      rw [List.drop_left]
      simp
  · next hne => exact absurd rfl (hne ('#' :: (d ++ ['>'])))

/-- Rule selection on a bracketed at-sign digit run picks the user mention. -/
theorem selectRule_user (d : List Char) (h : ∀ c ∈ d, c.isDigit = true) :
    selectRule initState [] ('<' :: '@' :: (d ++ ['>']))
      = some ⟨2 + 0 + d.length + 1, .duA d⟩ := by
  have hrole : discordRoleMatch ('<' :: '@' :: (d ++ ['>'])) = none := by
    cases d with
    | nil => rfl
    | cons a d' =>
      exact roleNone a (d' ++ ['>']) (h a (by simp))
  unfold selectRule
  rw [autolinkNone '@' d (by decide) h, hrole, userSome d h]
  rfl

/-- Rule selection on a bracketed hash digit run picks the channel mention. -/
theorem selectRule_channel (d : List Char) (h : ∀ c ∈ d, c.isDigit = true) :
    selectRule initState [] ('<' :: '#' :: (d ++ ['>']))
      = some ⟨1 + 1 + d.length + 1, .dcA d⟩ := by
  unfold selectRule
  rw [autolinkNone '#' d (by decide) h, channelSome d h]
  rfl

/-- C10: the user-mention and channel-mention rules accept ids of any digit
count, including zero digits — parsing a bracketed digit run yields one
mention node whose id field is exactly that possibly-empty digit run, and
sanitizing it yields a single space. -/
theorem C10_mention_any_digits (d : List Char) (h : ∀ c ∈ d, c.isDigit = true) :
    parse ('<' :: '@' :: (d ++ ['>'])) = [.discordUser d]
    ∧ parse ('<' :: '#' :: (d ++ ['>'])) = [.discordChannel d]
    ∧ sanitize ('<' :: '@' :: (d ++ ['>'])) = [' ']
    ∧ sanitize ('<' :: '#' :: (d ++ ['>'])) = [' '] := by
  have hlen : ('@' :: (d ++ ['>'])).length = (d.length + 1) + 1 := by simp
  have hn : 2 + 0 + d.length + 1 = ('<' :: '@' :: (d ++ ['>'])).length := by
    simp; omega
  have hnc : 1 + 1 + d.length + 1 = ('<' :: '#' :: (d ++ ['>'])).length := by
    simp; omega
  have hu : parse ('<' :: '@' :: (d ++ ['>'])) = [.discordUser d] := by
    unfold parse parseFull
    rw [show ('<' :: '@' :: (d ++ ['>'] : List Char)).length = (d.length + 1 + 1) + 1
      from by simp]
    rw [nestedParse_cons_duA (d.length + 1 + 1) '<' ('@' :: (d ++ ['>'])) initState []
      (2 + 0 + d.length + 1) d (selectRule_user d h)]
    rw [hn, List.drop_length]
    rw [nestedParse_nil]
    simp
  have hc : parse ('<' :: '#' :: (d ++ ['>'])) = [.discordChannel d] := by
    unfold parse parseFull
    rw [show ('<' :: '#' :: (d ++ ['>'] : List Char)).length = (d.length + 1 + 1) + 1
      from by simp]
    rw [nestedParse_cons_dcA (d.length + 1 + 1) '<' ('#' :: (d ++ ['>'])) initState []
      (1 + 1 + d.length + 1) d (selectRule_channel d h)]
    rw [hnc, List.drop_length]
    rw [nestedParse_nil]
    simp
  refine ⟨hu, hc, ?_, ?_⟩
  · unfold sanitize
    rw [hu]
    rfl
  · unfold sanitize
    rw [hc]
    rfl

/-- C10 witness: the theorem applied at the empty digit run — the bare sigil
brackets parse as mention nodes with empty ids and sanitize to one space. -/
theorem C10_witness :
    parse (strL "<@>") = [.discordUser []]
    ∧ parse (strL "<#>") = [.discordChannel []]
    ∧ sanitize (strL "<@>") = [' ']
    ∧ sanitize (strL "<#>") = [' '] :=
  ⟨(C10_mention_any_digits [] (by simp)).1,
   (C10_mention_any_digits [] (by simp)).2.1,
   (C10_mention_any_digits [] (by simp)).2.2.1,
   (C10_mention_any_digits [] (by simp)).2.2.2⟩

/-- A Boolean prefix is no longer than the list it prefixes. -/
theorem isPrefixOf_length_le (p l : List Char) (h : p.isPrefixOf l = true) :
    p.length ≤ l.length := by
  induction p generalizing l with
  | nil => simp
  | cons a p' ih =>
    cases l with
    | nil => simp [List.isPrefixOf] at h
    | cons b l' =>
      simp only [List.isPrefixOf, Bool.and_eq_true] at h
      simpa using ih l' h.2

/-- Every successful spoiler match consumes at least one character. -/
theorem spoilerMatch_pos (l : List Char) (sel : Sel) (h : spoilerMatch l = some sel) :
    1 ≤ sel.len := by
  unfold spoilerMatch at h
  repeat' split at h
  all_goals first
    | exact Option.noConfusion h
    | (injection h with h1; subst h1; (try dsimp only); omega)

/-- Every successful fenced-code match consumes at least one character. -/
theorem codeBlockMatch_pos (st : MDState) (l : List Char) (sel : Sel)
    (h : codeBlockMatch st l = some sel) : 1 ≤ sel.len := by
  unfold codeBlockMatch at h
  unfold_let at h
  repeat' split at h
  all_goals first
    | exact Option.noConfusion h
    | (injection h with h1; subst h1; (try dsimp only); omega)

/-- Every successful block-quote match consumes at least one character. -/
theorem blockQuoteMatch_pos (st : MDState) (pc l : List Char) (sel : Sel)
    (h : blockQuoteMatch st pc l = some sel) : 1 ≤ sel.len := by
  unfold blockQuoteMatch at h
  unfold_let at h
  split at h
  · exact Option.noConfusion h
  · split at h
    · next hpre =>
        injection h with h1
        subst h1
        dsimp only
        have h4 := isPrefixOf_length_le _ _ hpre
        rw [List.length_drop] at h4
        have h5 : (strL ">>> ").length = 4 := rfl
        omega
    · split at h
      · injection h with h1; subst h1; (try dsimp only); omega
      · exact Option.noConfusion h

/-- Every successful newline match consumes at least one character. -/
theorem newlineMatch_pos (st : MDState) (l : List Char) (sel : Sel)
    (h : newlineMatch st l = some sel) : 1 ≤ sel.len := by
  unfold newlineMatch at h
  repeat' split at h
  all_goals first
    | exact Option.noConfusion h
    | (injection h with h1; subst h1; (try dsimp only); omega)

/-- Every successful escape match consumes at least one character. -/
theorem escapeMatch_pos (st : MDState) (l : List Char) (sel : Sel)
    (h : escapeMatch st l = some sel) : 1 ≤ sel.len := by
  unfold escapeMatch at h
  repeat' split at h
  all_goals first
    | exact Option.noConfusion h
    | (injection h with h1; subst h1; (try dsimp only); omega)

/-- Every successful autolink match consumes at least one character. -/
theorem autolinkMatch_pos (st : MDState) (l : List Char) (sel : Sel)
    (h : autolinkMatch st l = some sel) : 1 ≤ sel.len := by
  unfold autolinkMatch at h
  unfold_let at h
  repeat' split at h
  all_goals first
    | exact Option.noConfusion h
    | (injection h with h1; subst h1; (try dsimp only); omega)

/-- Every successful bare-URL match consumes at least one character. -/
theorem urlMatch_pos (st : MDState) (l : List Char) (sel : Sel)
    (h : urlMatch st l = some sel) : 1 ≤ sel.len := by
  unfold urlMatch at h
  unfold_let at h
  repeat' split at h
  all_goals first
    | exact Option.noConfusion h
    | (injection h with h1; subst h1; (try dsimp only); omega)

/-- Every successful emphasis match consumes at least one character. -/
theorem emMatch_pos (st : MDState) (l : List Char) (sel : Sel)
    (h : emMatch st l = some sel) : 1 ≤ sel.len := by
  unfold emMatch at h
  repeat' split at h
  all_goals first
    | exact Option.noConfusion h
    | (obtain ⟨a, ha, h2⟩ := Option.map_eq_some'.mp h; subst h2; dsimp only; omega)

/-- Every successful strong match consumes at least one character. -/
theorem strongMatch_pos (st : MDState) (l : List Char) (sel : Sel)
    (h : strongMatch st l = some sel) : 1 ≤ sel.len := by
  unfold strongMatch at h
  repeat' split at h
  all_goals first
    | exact Option.noConfusion h
    | (obtain ⟨a, ha, h2⟩ := Option.map_eq_some'.mp h; subst h2; dsimp only; omega)

/-- Every successful underline match consumes at least one character. -/
theorem uMatch_pos (st : MDState) (l : List Char) (sel : Sel)
    (h : uMatch st l = some sel) : 1 ≤ sel.len := by
  unfold uMatch at h
  repeat' split at h
  all_goals first
    | exact Option.noConfusion h
    | (obtain ⟨a, ha, h2⟩ := Option.map_eq_some'.mp h; subst h2; dsimp only; omega)

/-- Every successful strike match consumes at least one character. -/
theorem strikeMatch_pos (st : MDState) (l : List Char) (sel : Sel)
    (h : strikeMatch st l = some sel) : 1 ≤ sel.len := by
  unfold strikeMatch at h
  repeat' split at h
  all_goals first
    | exact Option.noConfusion h
    | (injection h with h1; subst h1; (try dsimp only); omega)

/-- Every successful inline-code backtrack step consumes at least one
character. -/
theorem icTryN_pos (l : List Char) (n : Nat) (sel : Sel)
    (h : icTryN l n = some sel) : 1 ≤ sel.len := by
  induction n with
  | zero => exact absurd h (by simp [icTryN])
  | succ n ih =>
    unfold icTryN at h
    unfold_let at h
    split at h
    · injection h with h1; subst h1; (try dsimp only); omega
    · exact ih h

/-- Every successful inline-code match consumes at least one character. -/
theorem inlineCodeMatch_pos (st : MDState) (l : List Char) (sel : Sel)
    (h : inlineCodeMatch st l = some sel) : 1 ≤ sel.len := by
  unfold inlineCodeMatch at h
  split at h
  · exact absurd h (by simp)
  · exact icTryN_pos _ _ _ h

/-- Every successful line-break match consumes at least one character. -/
theorem brMatch_pos (l : List Char) (sel : Sel) (h : brMatch l = some sel) :
    1 ≤ sel.len := by
  unfold brMatch at h
  repeat' split at h
  all_goals first
    | exact Option.noConfusion h
    | (injection h with h1; subst h1; (try dsimp only); omega)

/-- The plain-text rule consumes at least one character on nonempty input. -/
theorem textLen_pos (c : Char) (t : List Char) : 1 ≤ textLen (c :: t) := by
  unfold textLen
  split <;> omega

/-- Every successful plain-text match consumes at least one character. -/
theorem textMatch_pos (l : List Char) (sel : Sel) (h : textMatch l = some sel) :
    1 ≤ sel.len := by
  unfold textMatch at h
  split at h
  · exact absurd h (by simp)
  · next c t =>
      injection h with h1
      subst h1
      dsimp only
      exact textLen_pos c t

/-- Every successful emoticon match consumes at least one character. -/
theorem emoticonMatch_pos (l : List Char) (sel : Sel) (h : emoticonMatch l = some sel) :
    1 ≤ sel.len := by
  unfold emoticonMatch at h
  split at h
  · injection h with h1; subst h1; (try dsimp only); omega
  · exact absurd h (by simp)

/-- Every successful user-mention match consumes at least one character. -/
theorem discordUserMatch_pos (l : List Char) (sel : Sel)
    (h : discordUserMatch l = some sel) : 1 ≤ sel.len := by
  unfold discordUserMatch at h
  unfold_let at h
  repeat' split at h
  all_goals first
    | exact Option.noConfusion h
    | (injection h with h1; subst h1; (try dsimp only); omega)

/-- Every successful channel-mention match consumes at least one character. -/
theorem discordChannelMatch_pos (l : List Char) (sel : Sel)
    (h : discordChannelMatch l = some sel) : 1 ≤ sel.len := by
  unfold discordChannelMatch at h
  unfold_let at h
  repeat' split at h
  all_goals first
    | exact Option.noConfusion h
    | (injection h with h1; subst h1; (try dsimp only); omega)

/-- Every successful role-mention match consumes at least one character. -/
theorem discordRoleMatch_pos (l : List Char) (sel : Sel)
    (h : discordRoleMatch l = some sel) : 1 ≤ sel.len := by
  unfold discordRoleMatch at h
  unfold_let at h
  repeat' split at h
  all_goals first
    | exact Option.noConfusion h
    | (injection h with h1; subst h1; (try dsimp only); omega)

/-- Every successful emoji match consumes at least one character. -/
theorem discordEmojiMatch_pos (l : List Char) (sel : Sel)
    (h : discordEmojiMatch l = some sel) : 1 ≤ sel.len := by
  unfold discordEmojiMatch at h
  unfold_let at h
  repeat' split at h
  all_goals first
    | exact Option.noConfusion h
    | (injection h with h1; subst h1; (try dsimp only); omega)

/-- Every successful everyone-mention match consumes at least one character. -/
theorem discordEveryoneMatch_pos (l : List Char) (sel : Sel)
    (h : discordEveryoneMatch l = some sel) : 1 ≤ sel.len := by
  unfold discordEveryoneMatch at h
  split at h
  · injection h with h1; subst h1; (try dsimp only); omega
  · exact absurd h (by simp)

/-- Every successful here-mention match consumes at least one character. -/
theorem discordHereMatch_pos (l : List Char) (sel : Sel)
    (h : discordHereMatch l = some sel) : 1 ≤ sel.len := by
  unfold discordHereMatch at h
  split at h
  · injection h with h1; subst h1; (try dsimp only); omega
  · exact absurd h (by simp)

/-- A first-success scan only ever returns an element of its list. -/
theorem firstSome_eq_some {α : Type} (L : List (Option α)) (b : α)
    (h : firstSome id L = some b) : some b ∈ L := by
  induction L with
  | nil => exact absurd h (by simp [firstSome])
  | cons a t ih =>
    cases a with
    | some x =>
      have h2 : some x = some b := by simpa [firstSome] using h
      rw [← h2]
      exact List.mem_cons_self _ _
    | none =>
      have h2 : firstSome id t = some b := by simpa [firstSome] using h
      exact List.mem_cons_of_mem _ (ih h2)

/-- Whichever rule wins selection, it consumes at least one character. -/
theorem selectRule_pos (st : MDState) (pc : List Char) (l : List Char) (sel : Sel)
    (h : selectRule st pc l = some sel) : 1 ≤ sel.len := by
  unfold selectRule at h
  have hmem := firstSome_eq_some _ _ h
  simp only [List.mem_cons, List.not_mem_nil, or_false] at hmem
  rcases hmem with h1 | h1 | h1 | h1 | h1 | h1 | h1 | h1 | h1 | h1 | h1 | h1 | h1 | h1 | h1
    | h1 | h1 | h1 | h1 | h1 | h1
  · exact spoilerMatch_pos _ _ h1.symm
  · exact codeBlockMatch_pos _ _ _ h1.symm
  · exact blockQuoteMatch_pos _ _ _ _ h1.symm
  · exact newlineMatch_pos _ _ _ h1.symm
  · exact escapeMatch_pos _ _ _ h1.symm
  · exact autolinkMatch_pos _ _ _ h1.symm
  · exact urlMatch_pos _ _ _ h1.symm
  · exact discordChannelMatch_pos _ _ h1.symm
  · exact discordEmojiMatch_pos _ _ h1.symm
  · exact discordEveryoneMatch_pos _ _ h1.symm
  · exact discordHereMatch_pos _ _ h1.symm
  · exact discordRoleMatch_pos _ _ h1.symm
  · exact discordUserMatch_pos _ _ h1.symm
  · exact emMatch_pos _ _ _ h1.symm
  · exact strongMatch_pos _ _ _ h1.symm
  · exact uMatch_pos _ _ _ h1.symm
  · exact strikeMatch_pos _ _ _ h1.symm
  · exact inlineCodeMatch_pos _ _ _ h1.symm
  · exact brMatch_pos _ _ h1.symm
  · exact emoticonMatch_pos _ _ h1.symm
  · exact textMatch_pos _ _ h1.symm

/-- A first-success scan with a last element that is some never fails. -/
theorem firstSome_isSome_last {α : Type} (L : List (Option α)) (x : α)
    (h : some x ∈ L) : (firstSome id L).isSome = true := by
  induction L with
  | nil => simp at h
  | cons a t ih =>
    cases a with
    | some b => simp [firstSome]
    | none =>
      rcases List.mem_cons.mp h with h1 | h1
      · exact absurd h1 (by simp)
      · simpa [firstSome] using ih h1

/-- Rule selection never fails on a nonempty input: the plain-text fallback
matches at least one character whenever nothing else does. -/
theorem selectRule_isSome (st : MDState) (pc : List Char) (c : Char) (t : List Char) :
    (selectRule st pc (c :: t)).isSome = true := by
  unfold selectRule
  apply firstSome_isSome_last _ ⟨textLen (c :: t), .textA ((c :: t).take (textLen (c :: t)))⟩
  simp [textMatch, emoticonMatch]

/-- One engine step, generic over the selected rule: the step node and the
threaded state exist such that the engine output is the step node paired with
the matched span, followed by the recursive run on the remainder. -/
theorem nestedParse_cons_parts (fuel : Nat) (c : Char) (t : List Char) (st : MDState)
    (pc : List Char) (sel : Sel) (hsel : selectRule st pc (c :: t) = some sel) :
    ∃ p : Node × MDState, nestedParse (fuel + 1) (c :: t) st pc =
      ((p.1, (c :: t).take sel.len)
        :: (nestedParse fuel ((c :: t).drop sel.len) p.2 ((c :: t).take sel.len)).1,
       (nestedParse fuel ((c :: t).drop sel.len) p.2 ((c :: t).take sel.len)).2) := by
  refine ⟨(match sel.act with
    | .textA content => (Node.text content, st)
    | .escapeA ch => (Node.text [ch], st)
    | .newlineA => (Node.newline, st)
    | .brA => (Node.br, st)
    | .codeBlockA lang content =>
      (Node.codeBlock (trimWs lang) content (truthy st.inQuote), st)
    | .blockQuoteA m => blockQuoteParseStep (nestedParse fuel) m st pc
    | .spoilerA inner =>
      let res := nestedParse fuel inner st pc
      (Node.spoiler (res.1.map (·.1)), res.2)
    | .emA inner =>
      let res := nestedParse fuel inner st pc
      (Node.em (res.1.map (·.1)), res.2)
    | .strongA inner =>
      let res := nestedParse fuel inner st pc
      (Node.strong (res.1.map (·.1)), res.2)
    | .uA inner =>
      let res := nestedParse fuel inner st pc
      (Node.u (res.1.map (·.1)), res.2)
    | .strikeA inner =>
      let res := nestedParse fuel inner st pc
      (Node.strike (res.1.map (·.1)), res.2)
    | .autolinkA tg => (Node.autolink [Node.text tg] tg, st)
    | .urlA tg => (Node.url [Node.text tg] tg, st)
    | .icA content => (Node.inlineCode content, st)
    | .duA i => (Node.discordUser i, st)
    | .dcA i => (Node.discordChannel i, st)
    | .drA i => (Node.discordRole i, st)
    | .demA a n i => (Node.discordEmoji a n i, st)
    | .devA => (Node.discordEveryone, st)
    | .dhA => (Node.discordHere, st)), ?_⟩
  conv_lhs => rw [nestedParse.eq_def]
  dsimp only
  rw [hsel]

/-- The matched spans of an engine run concatenate back to the whole input,
whenever the fuel covers the input length. -/
theorem nestedParse_cover (fuel : Nat) :
    ∀ (src : List Char) (st : MDState) (pc : List Char), src.length ≤ fuel →
      ((nestedParse fuel src st pc).1.map (fun x => x.2)).flatten = src := by
  induction fuel with
  | zero =>
    intro src st pc hlen
    cases src with
    | nil => rfl
    | cons c t => simp at hlen
  | succ fuel ih =>
    intro src st pc hlen
    cases src with
    | nil => rfl
    | cons c t =>
      have hs := selectRule_isSome st pc c t
      obtain ⟨sel, hsel⟩ := Option.isSome_iff_exists.mp hs
      have hpos := selectRule_pos st pc (c :: t) sel hsel
      obtain ⟨p, hp⟩ := nestedParse_cons_parts fuel c t st pc sel hsel
      rw [hp]
      simp only [List.map_cons, List.flatten_cons]
      rw [ih ((c :: t).drop sel.len) p.2 ((c :: t).take sel.len)
        (by simp only [List.length_drop, List.length_cons] at *; omega)]
      exact List.take_append_drop sel.len (c :: t)

/-- C2: parsing is total — the engine run over any input (with fuel equal to
the input length, as the exported parse uses) produces a node sequence whose
matched spans are contiguous and exhaustive over the input; rule selection
has no failure outcome on nonempty input; and the plain-text fallback always
consumes at least one character, guaranteeing forward progress. -/
theorem C2_parse_total_coverage :
    (∀ s : List Char, ((parseFull s).1.map (fun x => x.2)).flatten = s)
    ∧ (∀ (st : MDState) (pc : List Char) (c : Char) (t : List Char),
        (selectRule st pc (c :: t)).isSome = true)
    ∧ (∀ (c : Char) (t : List Char), 1 ≤ textLen (c :: t)) :=
  ⟨fun s => nestedParse_cover s.length s initState [] (le_refl _),
   selectRule_isSome,
   textLen_pos⟩

/-! ## The escape/sanitize round trip (claim C1) -/

/-- Boolean form of the ordinary-character class. -/
def ordB (c : Char) : Bool :=
  c.isAlphanum || c == ' ' || c == '-' ||
    (decide (0xC0 ≤ c.toNat) && decide (c.toNat ≤ 0xFFFF))

/-- The Boolean and propositional ordinary-character classes agree. -/
theorem ordB_iff (c : Char) : ordB c = true ↔ OrdinaryCh c := by
  unfold ordB OrdinaryCh
  simp only [Bool.or_eq_true, Bool.and_eq_true, decide_eq_true_eq, beq_iff_eq]
  tauto

/-- One replaceAll pass distributes over concatenation. -/
theorem replaceAllCh_append (c : Char) (l₁ l₂ : List Char) :
    replaceAllCh c (l₁ ++ l₂) = replaceAllCh c l₁ ++ replaceAllCh c l₂ := by
  simp [replaceAllCh]

/-- The escaper distributes over concatenation. -/
theorem escape_append (l₁ l₂ : List Char) :
    escape (l₁ ++ l₂) = escape l₁ ++ escape l₂ := by
  simp [escape, replaceAllCh_append]

/-- The eight passes act on a single character as the per-character map does:
backslash-prefix the eight specials, leave everything else alone. -/
theorem escape_singleton (c : Char) : escape [c] = escChar c := by
  by_cases hc : c ∈ specials
  · rcases (by simpa [specials] using hc :
      c = '\\' ∨ c = '*' ∨ c = '_' ∨ c = '`' ∨ c = '|' ∨ c = '~' ∨ c = '>' ∨ c = '<') with
      rfl | rfl | rfl | rfl | rfl | rfl | rfl | rfl <;> rfl
  · have h8 : ¬(c = '\\' ∨ c = '*' ∨ c = '_' ∨ c = '`' ∨ c = '|' ∨ c = '~' ∨ c = '>' ∨ c = '<') := by
      simpa [specials] using hc
    push_neg at h8
    obtain ⟨n1, n2, n3, n4, n5, n6, n7, n8⟩ := h8
    simp [escape, replaceAllCh, escChar, specials, n1, n2, n3, n4, n5, n6, n7, n8]

/-- The eight sequential replaceAll passes equal one pass of the
per-character map. -/
theorem escape_eq_flatMap (l : List Char) : escape l = l.flatMap escChar := by
  induction l with
  | nil => rfl
  | cons c t ih =>
    have h0 : (c :: t) = [c] ++ t := rfl
    rw [h0, escape_append, escape_singleton, ih, List.flatMap_append]
    simp

instance (c : Char) : Decidable (OrdinaryCh c) := by
  unfold OrdinaryCh
  infer_instance

/-- An ordinary character is not one of the specials. -/
theorem ordinary_not_special (c : Char) (h : OrdinaryCh c) : c ∉ specials := by
  intro hmem
  rcases (by simpa [specials] using hmem :
    c = '\\' ∨ c = '*' ∨ c = '_' ∨ c = '`' ∨ c = '|' ∨ c = '~' ∨ c = '>' ∨ c = '<') with
    rfl | rfl | rfl | rfl | rfl | rfl | rfl | rfl <;>
    revert h <;> decide

/-- An ordinary character differs from any character that is not ordinary. -/
theorem ordinary_ne (c x : Char) (h : OrdinaryCh c) (hx : ¬ OrdinaryCh x) : c ≠ x :=
  fun he => hx (he ▸ h)

/-- An ordinary character lies in the plain-text rule's free class. -/
theorem ordinary_good (c : Char) (h : OrdinaryCh c) : goodTextChar c = true := by
  unfold goodTextChar
  rcases h with h | rfl | rfl | ⟨h1, h2⟩
  · simp [h]
  · rfl
  · rfl
  · simp [jsWhitespace, h1, h2]

/-- The escape image of a well-formed string consists of specials, ordinary
characters, and backslashes only — in particular it never contains a colon,
an at sign, or any other character outside the two classes. -/
theorem mem_flatMap_escChar (s : List Char) (x : Char)
    (hs : ∀ c ∈ s, c ∈ specials ∨ OrdinaryCh c)
    (hx : x ∈ s.flatMap escChar) : x ∈ specials ∨ OrdinaryCh x := by
  rw [List.mem_flatMap] at hx
  obtain ⟨c, hc, hxc⟩ := hx
  unfold escChar at hxc
  by_cases hcs : c ∈ specials
  · rw [if_pos hcs] at hxc
    rcases (by simpa using hxc : x = '\\' ∨ x = c) with rfl | h2
    · exact .inl (by simp [specials])
    · rw [h2]
      exact hs c hc
  · rw [if_neg hcs] at hxc
    rw [show x = c from by simpa using hxc]
    exact hs c hc

/-- The head of a list with a Boolean prefix starting in x is x. -/
theorem isPrefixOf_head (x : Char) (p l : List Char)
    (h : (x :: p).isPrefixOf l = true) : l.head? = some x := by
  cases l with
  | nil => simp [List.isPrefixOf] at h
  | cons y t =>
    simp only [List.isPrefixOf, Bool.and_eq_true, beq_iff_eq] at h
    rw [h.1]
    rfl

/-- A head is a member. -/
theorem head?_mem (l : List Char) (x : Char) (h : l.head? = some x) : x ∈ l := by
  cases l with
  | nil => cases h
  | cons y t => injection h with h1; rw [h1]; simp

/-- Dropping the length of the matching prefix is the same as dropping while
the predicate holds. -/
theorem dropTake_eq_dropWhile (p : Char → Bool) (l : List Char) :
    l.drop (l.takeWhile p).length = l.dropWhile p := by
  induction l with
  | nil => rfl
  | cons a t ih =>
    by_cases ha : p a = true
    · simp only [List.takeWhile_cons, ha, if_true, List.length_cons, List.drop_succ_cons,
        List.dropWhile_cons, ih]
    · rw [List.takeWhile_cons, if_neg (by simp [ha])]
      simp [List.dropWhile_cons, ha]

/-- The spoiler rule rejects any input not starting with a pipe. -/
theorem spoilerMatch_ne (x : Char) (r : List Char) (h : x ≠ '|') :
    spoilerMatch (x :: r) = none := by
  unfold spoilerMatch
  split
  · next heq =>
      injection heq with h1 h2
      exact absurd h1 h
  · rfl

/-- The fenced-code rule rejects any input not starting with a backtick. -/
theorem codeBlockMatch_ne (st : MDState) (x : Char) (r : List Char) (h : x ≠ '`') :
    codeBlockMatch st (x :: r) = none := by
  unfold codeBlockMatch
  split
  · rfl
  · split
    · next heq =>
        injection heq with h1 h2
        exact absurd h1 h
    · rfl

/-- The block-quote rule rejects any input whose first non-space character is
not the quote marker. -/
theorem blockQuoteMatch_ne (st : MDState) (pc l : List Char)
    (h : ((l.dropWhile (fun ch => ch == ' ')).head? = some '>') → False) :
    blockQuoteMatch st pc l = none := by
  have hp3 : (strL ">>> ").isPrefixOf (l.dropWhile (fun ch => ch == ' ')) = false := by
    cases hq : (strL ">>> ").isPrefixOf (l.dropWhile (fun ch => ch == ' '))
    · rfl
    · exact absurd (isPrefixOf_head '>' _ _ hq) h
  have hp1 : (strL "> ").isPrefixOf (l.dropWhile (fun ch => ch == ' ')) = false := by
    cases hq : (strL "> ").isPrefixOf (l.dropWhile (fun ch => ch == ' '))
    · rfl
    · exact absurd (isPrefixOf_head '>' _ _ hq) h
  unfold blockQuoteMatch
  split
  · rfl
  · unfold_let
    rw [dropTake_eq_dropWhile, hp3, hp1]
    simp

/-- The newline rule never fires while the context is inline. -/
theorem newlineMatch_inline (st : MDState) (l : List Char)
    (h : truthy st.inline = true) : newlineMatch st l = none := by
  unfold newlineMatch
  simp [h]

/-- The escape rule rejects any input not starting with a backslash. -/
theorem escapeMatch_ne (st : MDState) (x : Char) (r : List Char) (h : x ≠ '\\') :
    escapeMatch st (x :: r) = none := by
  unfold escapeMatch
  split
  · rfl
  · split
    · next heq =>
        injection heq with h1 h2
        exact absurd h1 h
    · rfl

/-- The autolink rule rejects any input not starting with an angle bracket. -/
theorem autolinkMatch_ne (st : MDState) (x : Char) (r : List Char) (h : x ≠ '<') :
    autolinkMatch st (x :: r) = none := by
  unfold autolinkMatch
  split
  · rfl
  · split
    · next heq =>
        injection heq with h1 h2
        exact absurd h1 h
    · rfl

/-- The bare-URL rule rejects any input not starting with the scheme letter. -/
theorem urlMatch_ne (st : MDState) (x : Char) (r : List Char) (h : x ≠ 'h') :
    urlMatch st (x :: r) = none := by
  have hp : (strL "http").isPrefixOf (x :: r) = false := by
    cases hq : (strL "http").isPrefixOf (x :: r)
    · rfl
    · have h1 := isPrefixOf_head 'h' (strL "ttp") (x :: r) hq
      injection h1 with h2
      exact absurd h2 h
  unfold urlMatch
  rw [hp]
  simp

/-- The bare-URL rule rejects any input without a colon. -/
theorem urlMatch_noColon (st : MDState) (l : List Char) (h : ':' ∉ l) :
    urlMatch st l = none := by
  unfold urlMatch
  unfold_let
  split
  · rfl
  · split
    · rw [if_neg]
      intro hp
      exact h (List.mem_of_mem_drop (head?_mem _ _ (isPrefixOf_head ':' _ _ hp)))
    · rfl

/-- The emphasis rule rejects any input not starting with an underscore or an
asterisk. -/
theorem emMatch_ne (st : MDState) (x : Char) (r : List Char)
    (hu : x ≠ '_') (hs : x ≠ '*') : emMatch st (x :: r) = none := by
  unfold emMatch
  split
  · rfl
  · split
    · next heq =>
        injection heq with h1 h2
        exact absurd h1 hu
    · next heq =>
        injection heq with h1 h2
        exact absurd h1 hs
    · rfl

/-- The strong rule rejects any input not starting with an asterisk. -/
theorem strongMatch_ne (st : MDState) (x : Char) (r : List Char) (h : x ≠ '*') :
    strongMatch st (x :: r) = none := by
  unfold strongMatch
  split
  · rfl
  · split
    · next heq =>
        injection heq with h1 h2
        exact absurd h1 h
    · rfl

/-- The underline rule rejects any input not starting with an underscore. -/
theorem uMatch_ne (st : MDState) (x : Char) (r : List Char) (h : x ≠ '_') :
    uMatch st (x :: r) = none := by
  unfold uMatch
  split
  · rfl
  · split
    · next heq =>
        injection heq with h1 h2
        exact absurd h1 h
    · rfl

/-- The strike rule rejects any input not starting with a tilde. -/
theorem strikeMatch_ne (st : MDState) (x : Char) (r : List Char) (h : x ≠ '~') :
    strikeMatch st (x :: r) = none := by
  unfold strikeMatch
  split
  · rfl
  · split
    · next heq =>
        injection heq with h1 h2
        exact absurd h1 h
    · rfl

/-- The inline-code rule rejects any input not starting with a backtick. -/
theorem inlineCodeMatch_ne (st : MDState) (x : Char) (r : List Char) (h : x ≠ '`') :
    inlineCodeMatch st (x :: r) = none := by
  unfold inlineCodeMatch
  split
  · rfl
  · rw [show ((x :: r).takeWhile (fun ch => ch == '`')).length = 0 from by
      rw [List.takeWhile_cons, if_neg (by simp [h])]
      rfl]
    rfl

/-- The line-break rule rejects any input not starting with a newline. -/
theorem brMatch_ne (x : Char) (r : List Char) (h : x ≠ '\n') :
    brMatch (x :: r) = none := by
  unfold brMatch
  split
  · next heq =>
      injection heq with h1 h2
      exact absurd h1 h
  · rfl

/-- The emoticon rule rejects any input not starting with a macron. -/
theorem emoticonMatch_ne (x : Char) (r : List Char) (h : x ≠ '¯') :
    emoticonMatch (x :: r) = none := by
  unfold emoticonMatch
  rw [if_neg]
  intro hp
  have := isPrefixOf_head '¯' _ _ hp
  injection this with h1
  exact absurd h1 h

/-- The user-mention rule rejects any input not starting with an angle
bracket. -/
theorem discordUserMatch_ne (x : Char) (r : List Char) (h : x ≠ '<') :
    discordUserMatch (x :: r) = none := by
  unfold discordUserMatch
  split
  · next heq =>
      injection heq with h1 h2
      exact absurd h1 h
  · rfl

/-- The channel-mention rule rejects any input not starting with an angle
bracket. -/
theorem discordChannelMatch_ne (x : Char) (r : List Char) (h : x ≠ '<') :
    discordChannelMatch (x :: r) = none := by
  unfold discordChannelMatch
  split
  · next heq =>
      injection heq with h1 h2
      exact absurd h1 h
  · rfl

/-- The role-mention rule rejects any input not starting with an angle
bracket. -/
theorem discordRoleMatch_ne (x : Char) (r : List Char) (h : x ≠ '<') :
    discordRoleMatch (x :: r) = none := by
  unfold discordRoleMatch
  split
  · next heq =>
      injection heq with h1 h2
      exact absurd h1 h
  · rfl

/-- The custom-emoji rule rejects any input not starting with an angle
bracket. -/
theorem discordEmojiMatch_ne (x : Char) (r : List Char) (h : x ≠ '<') :
    discordEmojiMatch (x :: r) = none := by
  unfold discordEmojiMatch
  split
  · next heq =>
      injection heq with h1 h2
      exact absurd h1 h
  · rfl

/-- The everyone-mention rule rejects any input not starting with an at sign. -/
theorem discordEveryoneMatch_ne (x : Char) (r : List Char) (h : x ≠ '@') :
    discordEveryoneMatch (x :: r) = none := by
  unfold discordEveryoneMatch
  rw [if_neg]
  intro hp
  have := isPrefixOf_head '@' _ _ hp
  injection this with h1
  exact absurd h1 h

/-- The here-mention rule rejects any input not starting with an at sign. -/
theorem discordHereMatch_ne (x : Char) (r : List Char) (h : x ≠ '@') :
    discordHereMatch (x :: r) = none := by
  unfold discordHereMatch
  rw [if_neg]
  intro hp
  have := isPrefixOf_head '@' _ _ hp
  injection this with h1
  exact absurd h1 h

/-- The word-colon-nonspace lookahead fails on any input without a colon. -/
theorem wcs_false (l : List Char) (h : ':' ∉ l) : wordColonStop l = false := by
  unfold wordColonStop
  unfold_let
  cases hh : (l.drop (l.takeWhile isWordChar).length).head? with
  | none => simp [hh]
  | some d =>
    have hd : d ∈ l := List.mem_of_mem_drop (head?_mem _ _ hh)
    have hb : ((some d : Option Char) == some ':') = false := by
      simp only [beq_eq_false_iff_ne]
      intro he
      injection he with h2
      exact h (h2 ▸ hd)
    simp only [hb, Bool.and_false, Bool.false_and]

/-- The plain-text lookahead does not stop before an ordinary character when
no colon lies ahead. -/
theorem textStop_ord (y : Char) (rr : List Char) (hy : OrdinaryCh y)
    (hcol : ':' ∉ (y :: rr)) : textStop (y :: rr) = false := by
  have hg := ordinary_good y hy
  have hn : (y == '\n') = false := by
    simp only [beq_eq_false_iff_ne]
    exact ordinary_ne y '\n' hy (by decide)
  have hw := wcs_false (y :: rr) hcol
  simp [textStop, hg, hn, hw]

/-- The plain-text lookahead stops before any special character. -/
theorem textStop_special (c : Char) (rr : List Char) (hc : c ∈ specials) :
    textStop (c :: rr) = true := by
  have hg : goodTextChar c = false := by
    fin_cases hc <;> decide
  simp [textStop, hg]

/-- The plain-text rule consumes exactly a maximal colon-free ordinary run
when what follows is empty or starts with a special character. -/
theorem textLen_append_run (run rest : List Char) (hne : run ≠ [])
    (hord : ∀ c ∈ run, OrdinaryCh c) (hcol : ':' ∉ (run ++ rest))
    (hrest : rest = [] ∨ ∃ c rr, rest = c :: rr ∧ c ∈ specials) :
    textLen (run ++ rest) = run.length := by
  induction run with
  | nil => exact absurd rfl hne
  | cons a run1 ih =>
    cases run1 with
    | nil =>
      have hstop : textStop rest = true := by
        rcases hrest with rfl | ⟨c, rr, rfl, hc⟩
        · rfl
        · exact textStop_special c rr hc
      simp [textLen, hstop]
    | cons b run2 =>
      have hb : OrdinaryCh b := hord b (by simp)
      have hcol2 : ':' ∉ ((b :: run2) ++ rest) := by
        intro hmem
        exact hcol (by simp at hmem ⊢; tauto)
      have hstop : textStop ((b :: run2) ++ rest) = false := by
        rw [List.cons_append]
        exact textStop_ord b (run2 ++ rest) hb (by simpa using hcol2)
      have ihr := ih (by simp) (fun c hc => hord c (by simp [hc])) hcol2
      rw [List.cons_append]
      rw [show textLen (a :: ((b :: run2) ++ rest))
          = if textStop ((b :: run2) ++ rest) then 1
            else 1 + textLen ((b :: run2) ++ rest) from rfl]
      rw [hstop]
      simp only [Bool.false_eq_true, if_false, ihr]
      simp [Nat.add_comm]

/-- The per-character escape map fixes a run of ordinary characters. -/
theorem flatMap_ord (run : List Char) (h : ∀ c ∈ run, OrdinaryCh c) :
    run.flatMap escChar = run := by
  induction run with
  | nil => rfl
  | cons a t ih =>
    have ha : escChar a = [a] := by
      unfold escChar
      rw [if_neg (ordinary_not_special a (h a (by simp)))]
    rw [List.flatMap_cons, ha, ih (fun c hc => h c (by simp [hc]))]
    rfl

/-- The escape image of a well-formed string never contains a colon. -/
theorem colon_not_escaped (s : List Char) (hs : ∀ c ∈ s, c ∈ specials ∨ OrdinaryCh c) :
    ':' ∉ s.flatMap escChar := by
  intro hmem
  rcases mem_flatMap_escChar s ':' hs hmem with h | h
  · exact absurd h (by decide)
  · exact absurd h (by decide)

/-- The first non-space character of the escape image of a well-formed string
is never the quote marker. -/
theorem escaped_no_quote (s : List Char) (hs : ∀ c ∈ s, c ∈ specials ∨ OrdinaryCh c) :
    ((s.flatMap escChar).dropWhile (fun ch => ch == ' ')).head? ≠ some '>' := by
  induction s with
  | nil => simp
  | cons c t ih =>
    rcases hs c (by simp) with hc | hc
    · have h1 : escChar c = ['\\', c] := by
        unfold escChar
        rw [if_pos hc]
      rw [List.flatMap_cons, h1]
      intro hq
      have h2 : some '\\' = some '>' := hq
      exact absurd h2 (by decide)
    · have h1 : escChar c = [c] := by
        unfold escChar
        rw [if_neg (ordinary_not_special c hc)]
      rw [List.flatMap_cons, h1]
      by_cases hsp : c = ' '
      · subst hsp
        rw [show (([' '] ++ t.flatMap escChar).dropWhile (fun ch => ch == ' '))
            = (t.flatMap escChar).dropWhile (fun ch => ch == ' ') from by
          rw [List.singleton_append, List.dropWhile_cons]
          simp]
        exact ih (fun d hd => hs d (by simp [hd]))
      · rw [List.singleton_append, List.dropWhile_cons, if_neg (by simp [hsp])]
        intro hq
        injection hq with h2
        exact absurd h2 (ordinary_ne c '>' hc (by decide))

/-- Head failure of a dropWhile result. -/
theorem dropWhile_cons_head (p : Char → Bool) (l : List Char) (d : Char)
    (rr : List Char) (h : l.dropWhile p = d :: rr) : p d = false := by
  induction l with
  | nil => cases h
  | cons a t ih =>
    rw [List.dropWhile_cons] at h
    by_cases ha : p a = true
    · rw [if_pos ha] at h
      exact ih h
    · rw [if_neg ha] at h
      injection h with h1 h2
      rw [← h1]
      simpa using ha

/-- At a backslash followed by a special character, rule selection picks the
escape rule, consuming two characters. -/
theorem SR_escape (pc : List Char) (c : Char) (r : List Char) (hc : c ∈ specials) :
    selectRule initState pc ('\\' :: c :: r) = some ⟨2, SelAct.escapeA c⟩ := by
  have hbq : blockQuoteMatch initState pc ('\\' :: c :: r) = none := by
    refine blockQuoteMatch_ne _ _ _ ?_
    intro hq
    have h2 : some '\\' = some '>' := hq
    exact absurd h2 (by decide)
  unfold selectRule
  rw [hbq]
  fin_cases hc <;> rfl

/-- At an ordinary character, with no colon ahead and a first non-space
character other than the quote marker, rule selection picks the plain-text
rule. -/
theorem SR_text (pc : List Char) (x : Char) (r : List Char)
    (hx : OrdinaryCh x) (hcol : ':' ∉ (x :: r))
    (hq : (((x :: r).dropWhile (fun ch => ch == ' ')).head? = some '>') → False) :
    selectRule initState pc (x :: r)
      = some ⟨textLen (x :: r), SelAct.textA ((x :: r).take (textLen (x :: r)))⟩ := by
  unfold selectRule
  rw [spoilerMatch_ne x r (ordinary_ne x '|' hx (by decide)),
      codeBlockMatch_ne initState x r (ordinary_ne x '`' hx (by decide)),
      blockQuoteMatch_ne initState pc (x :: r) hq,
      newlineMatch_inline initState (x :: r) rfl,
      escapeMatch_ne initState x r (ordinary_ne x '\\' hx (by decide)),
      autolinkMatch_ne initState x r (ordinary_ne x '<' hx (by decide)),
      urlMatch_noColon initState (x :: r) hcol,
      discordChannelMatch_ne x r (ordinary_ne x '<' hx (by decide)),
      discordEmojiMatch_ne x r (ordinary_ne x '<' hx (by decide)),
      discordEveryoneMatch_ne x r (ordinary_ne x '@' hx (by decide)),
      discordHereMatch_ne x r (ordinary_ne x '@' hx (by decide)),
      discordRoleMatch_ne x r (ordinary_ne x '<' hx (by decide)),
      discordUserMatch_ne x r (ordinary_ne x '<' hx (by decide)),
      emMatch_ne initState x r (ordinary_ne x '_' hx (by decide))
        (ordinary_ne x '*' hx (by decide)),
      strongMatch_ne initState x r (ordinary_ne x '*' hx (by decide)),
      uMatch_ne initState x r (ordinary_ne x '_' hx (by decide)),
      strikeMatch_ne initState x r (ordinary_ne x '~' hx (by decide)),
      inlineCodeMatch_ne initState x r (ordinary_ne x '`' hx (by decide)),
      brMatch_ne x r (ordinary_ne x '\n' hx (by decide)),
      emoticonMatch_ne x r (ordinary_ne x '¯' hx (by decide))]
  rfl

/-- One engine step whose selected rule is the escape rule. -/
theorem nestedParse_cons_escA (fuel : Nat) (c : Char) (t : List Char) (st : MDState)
    (pc : List Char) (n : Nat) (e : Char)
    (hsel : selectRule st pc (c :: t) = some ⟨n, .escapeA e⟩) :
    nestedParse (fuel + 1) (c :: t) st pc =
      ((Node.text [e], (c :: t).take n)
        :: (nestedParse fuel ((c :: t).drop n) st ((c :: t).take n)).1,
       (nestedParse fuel ((c :: t).drop n) st ((c :: t).take n)).2) := by
  conv_lhs => rw [nestedParse.eq_def]
  dsimp only
  rw [hsel]

/-- One engine step whose selected rule is the plain-text rule. -/
theorem nestedParse_cons_textA (fuel : Nat) (c : Char) (t : List Char) (st : MDState)
    (pc : List Char) (n : Nat) (content : List Char)
    (hsel : selectRule st pc (c :: t) = some ⟨n, .textA content⟩) :
    nestedParse (fuel + 1) (c :: t) st pc =
      ((Node.text content, (c :: t).take n)
        :: (nestedParse fuel ((c :: t).drop n) st ((c :: t).take n)).1,
       (nestedParse fuel ((c :: t).drop n) st ((c :: t).take n)).2) := by
  conv_lhs => rw [nestedParse.eq_def]
  dsimp only
  rw [hsel]

/-- Parsing the escape image of a well-formed string and sanitizing the
resulting nodes recovers the string, for any previous capture and any
sufficient fuel. -/
theorem np_escaped (n : Nat) : ∀ (s : List Char) (pc : List Char) (fuel : Nat),
    s.length ≤ n → (∀ c ∈ s, c ∈ specials ∨ OrdinaryCh c) →
    (s.flatMap escChar).length ≤ fuel →
    ((nestedParse fuel (s.flatMap escChar) initState pc).1.map
        (fun p => sanitizeNode p.1)).flatten = s := by
  induction n with
  | zero =>
    intro s pc fuel hlen _ _
    cases s with
    | nil => simp [nestedParse_nil]
    | cons a t => simp at hlen
  | succ n ih =>
    intro s pc fuel hlen hs hfuel
    cases s with
    | nil => simp [nestedParse_nil]
    | cons c t =>
      rcases hs c (by simp) with hc | hc
      · have hE : (c :: t).flatMap escChar = '\\' :: c :: t.flatMap escChar := by
          rw [List.flatMap_cons, show escChar c = ['\\', c] from by
            unfold escChar
            rw [if_pos hc]]
          rfl
        have hflen : 2 + (t.flatMap escChar).length ≤ fuel := by
          rw [hE] at hfuel
          rw [List.length_cons, List.length_cons] at hfuel
          omega
        obtain ⟨fuel1, rfl⟩ : ∃ f, fuel = f + 1 := ⟨fuel - 1, by omega⟩
        have hsel := SR_escape pc c (t.flatMap escChar) hc
        rw [hE, nestedParse_cons_escA fuel1 '\\' (c :: t.flatMap escChar) initState pc 2 c
          hsel]
        rw [show (('\\' :: c :: t.flatMap escChar)).drop 2 = t.flatMap escChar from rfl,
            show (('\\' :: c :: t.flatMap escChar)).take 2 = ['\\', c] from rfl]
        simp only [List.map_cons, List.flatten_cons]
        rw [ih t ['\\', c] fuel1 (by simp at hlen; omega)
            (fun d hd => hs d (by simp [hd])) (by omega)]
        rfl
      · have hcB : ordB c = true := (ordB_iff c).mpr hc
        have hruncons : (c :: t).takeWhile ordB = c :: t.takeWhile ordB := by
          rw [List.takeWhile_cons, if_pos hcB]
        have hsplit : (c :: t).takeWhile ordB ++ (c :: t).dropWhile ordB = c :: t :=
          List.takeWhile_append_dropWhile ordB (c :: t)
        have hordrun : ∀ d ∈ (c :: t).takeWhile ordB, OrdinaryCh d := by
          intro d hd
          exact (ordB_iff d).mp (List.mem_takeWhile_imp hd)
        have hrestwf : ∀ d ∈ (c :: t).dropWhile ordB, d ∈ specials ∨ OrdinaryCh d := by
          intro d hd
          refine hs d ?_
          rw [← hsplit]
          exact List.mem_append_right _ hd
        have hrestshape : (c :: t).dropWhile ordB = []
            ∨ ∃ d rr, (c :: t).dropWhile ordB = d :: rr ∧ d ∈ specials := by
          cases hr : (c :: t).dropWhile ordB with
          | nil => exact .inl rfl
          | cons d rr =>
            refine .inr ⟨d, rr, rfl, ?_⟩
            have hdB : ordB d = false := dropWhile_cons_head ordB (c :: t) d rr hr
            rcases hrestwf d (by rw [hr]; simp) with h | h
            · exact h
            · exact absurd ((ordB_iff d).mpr h) (by simp [hdB])
        have hrestL : ((c :: t).dropWhile ordB).flatMap escChar = []
            ∨ ∃ d rr, ((c :: t).dropWhile ordB).flatMap escChar = d :: rr
                ∧ d ∈ specials := by
          rcases hrestshape with hr | ⟨d, rr, hr, hd⟩
          · rw [hr]
            exact .inl rfl
          · rw [hr, List.flatMap_cons, show escChar d = ['\\', d] from by
              unfold escChar
              rw [if_pos hd]]
            exact .inr ⟨'\\', d :: rr.flatMap escChar, rfl, by simp [specials]⟩
        have hL : (c :: t).flatMap escChar
            = (c :: t).takeWhile ordB ++ ((c :: t).dropWhile ordB).flatMap escChar := by
          conv_lhs => rw [← hsplit]
          rw [List.flatMap_append, flatMap_ord _ hordrun]
        have hcolL : ':' ∉ (c :: t).flatMap escChar := colon_not_escaped (c :: t) hs
        have htl : textLen ((c :: t).flatMap escChar) = ((c :: t).takeWhile ordB).length := by
          rw [hL]
          refine textLen_append_run _ _ (by rw [hruncons]; simp) hordrun ?_ hrestL
          rw [← hL]
          exact hcolL
        have hcons : (c :: t).flatMap escChar
            = c :: (t.takeWhile ordB ++ ((c :: t).dropWhile ordB).flatMap escChar) := by
          rw [hL, hruncons]
          rfl
        have hq := escaped_no_quote (c :: t) hs
        have hsel := SR_text pc c
          (t.takeWhile ordB ++ ((c :: t).dropWhile ordB).flatMap escChar) hc
          (by rw [← hcons]; exact hcolL) (by rw [← hcons]; exact hq)
        rw [← hcons] at hsel
        rw [htl] at hsel
        have htake : ((c :: t).flatMap escChar).take ((c :: t).takeWhile ordB).length
            = (c :: t).takeWhile ordB := by
          rw [hL]
          exact List.take_left _ _
        rw [htake] at hsel
        have hfl : ((c :: t).flatMap escChar).length
            = ((c :: t).takeWhile ordB).length
              + (((c :: t).dropWhile ordB).flatMap escChar).length := by
          rw [hL]
          simp
        have hrp : 1 ≤ ((c :: t).takeWhile ordB).length := by
          rw [hruncons]
          simp
        have hfge : 1 ≤ ((c :: t).flatMap escChar).length := by
          rw [hcons]
          simp
        obtain ⟨fuel1, rfl⟩ : ∃ f, fuel = f + 1 := ⟨fuel - 1, by omega⟩
        rw [hcons] at hsel ⊢
        rw [nestedParse_cons_textA fuel1 c
          (t.takeWhile ordB ++ ((c :: t).dropWhile ordB).flatMap escChar) initState pc
          ((c :: t).takeWhile ordB).length ((c :: t).takeWhile ordB) hsel]
        rw [show (c :: (t.takeWhile ordB ++ ((c :: t).dropWhile ordB).flatMap escChar)).drop
              ((c :: t).takeWhile ordB).length
            = ((c :: t).dropWhile ordB).flatMap escChar from by
          rw [← hcons, hL]
          exact List.drop_left _ _]
        rw [show (c :: (t.takeWhile ordB ++ ((c :: t).dropWhile ordB).flatMap escChar)).take
              ((c :: t).takeWhile ordB).length
            = (c :: t).takeWhile ordB from by
          rw [← hcons]
          exact htake]
        simp only [List.map_cons, List.flatten_cons]
        have hrlen : ((c :: t).dropWhile ordB).length ≤ n := by
          have h1 := congrArg List.length hsplit
          simp only [List.length_append, List.length_cons] at h1
          simp only [List.length_cons] at hlen
          omega
        rw [ih ((c :: t).dropWhile ordB) ((c :: t).takeWhile ordB) fuel1 hrlen hrestwf
          (by rw [hfl] at hfuel; omega)]
        rw [show sanitizeNode (Node.text ((c :: t).takeWhile ordB))
            = (c :: t).takeWhile ordB from rfl]
        exact hsplit

/-- C1: escaping a string of ordinary and special characters and then
sanitizing the result is the identity — every special character is
backslash-prefixed by escape, the parser reads each such pair through its
escape rule and each ordinary run through its plain-text rule, and the
sanitizer concatenates the recovered text verbatim. -/
theorem C1_escape_sanitize_round_trip (s : List Char)
    (hs : ∀ c ∈ s, c ∈ specials ∨ OrdinaryCh c) :
    sanitize (escape s) = s := by
  rw [escape_eq_flatMap]
  unfold sanitize parse parseFull
  rw [show (((nestedParse (s.flatMap escChar).length (s.flatMap escChar) initState
        []).1.map (·.1)).map sanitizeNode)
      = (nestedParse (s.flatMap escChar).length (s.flatMap escChar) initState
        []).1.map (fun p => sanitizeNode p.1) from by
    rw [List.map_map]
    rfl]
  exact np_escaped s.length s [] (s.flatMap escChar).length (le_refl _) hs (le_refl _)

/-- Witness: the round trip holds at a concrete string mixing ordinary
characters with all eight specials. -/
theorem C1_witness :
    (∀ c ∈ strL "a*b_c<d>|e\\f~g`h - ok", c ∈ specials ∨ OrdinaryCh c)
    ∧ sanitize (escape (strL "a*b_c<d>|e\\f~g`h - ok")) = strL "a*b_c<d>|e\\f~g`h - ok" :=
  ⟨by decide, C1_escape_sanitize_round_trip (strL "a*b_c<d>|e\\f~g`h - ok") (by decide)⟩

end Harmony
